import Mathlib

/-!
Shallow embedding of the `OramaSearchableTransformer` directive validation and
schema-resolution engine (`src/OramaSearchableTransformer.ts`), together with
theorems settling the specification claims about it.

The embedding mirrors the TypeScript source: GraphQL AST nodes become plain
inductive types, the `visitedTypes : Map<string, Record<string,string> | string[]>`
becomes an association list, JavaScript records become association lists with
insert-or-replace update, and the unbounded `while` loop of `validate` and the
recursion of `getSchema` are given explicit fuel; a separate theorem shows the
canonical fuel never runs out, which is the termination claim of the source.
-/

set_option autoImplicit false

namespace Orama

/-- A GraphQL type reference: a named type possibly wrapped in list and
non-null modifiers (`TypeNode` of the graphql AST). -/
inductive TypeNode where
  | named (name : String)
  | list (inner : TypeNode)
  | nonNull (inner : TypeNode)
deriving Repr, DecidableEq

/-- One field of an object type definition: a name and a type reference. -/
structure FieldDefinition where
  name : String
  type : TypeNode
deriving Repr, DecidableEq

/-- An `ObjectTypeDefinitionNode`: name and declared fields. -/
structure ObjectTypeDef where
  name : String
  fields : List FieldDefinition
deriving Repr, DecidableEq

/-- An `EnumTypeDefinitionNode`: name and ordered member names. -/
structure EnumTypeDef where
  name : String
  values : List String
deriving Repr, DecidableEq

/-- A definition of the host schema document.  Kinds other than object and
enum type definitions are irrelevant to the transformer and collapsed into
`otherKind`. -/
inductive Definition where
  | object (o : ObjectTypeDef)
  | enum (e : EnumTypeDef)
  | otherKind
deriving Repr, DecidableEq

/-- The parsed host schema document (`context.inputDocument`). -/
structure Document where
  definitions : List Definition
deriving Repr, DecidableEq

/-- A raw value of the user-supplied field-shape mapping, classified the way
JavaScript `typeof` classifies it in `getNonValidSchemaType`: a string, an
object-shaped literal (whose content the source never inspects), or any other
kind of value, carrying its `typeof` tag. -/
inductive RawValue where
  | str (s : String)
  | obj
  | other (kind : String)
deriving Repr, DecidableEq

/-- The user-declared field-shape mapping (`directiveArguments.schema`),
a record from field name to raw value, in insertion order. -/
abbrev Shape := List (String × RawValue)

/-- A value stored in `visitedTypes`: either a per-type field map
(`Record<string, string>`) for an object type, or the ordered member names
(`string[]`) for an enum type. -/
inductive VisitedValue where
  | record (tmp : List (String × String))
  | enumMembers (values : List String)
deriving Repr, DecidableEq

/-- The `visitedTypes` index. -/
abbrev Visited := List (String × VisitedValue)

/-- A fully resolved schema value: either a primitive search-type marker or a
nested resolved schema. -/
inductive ResolvedValue where
  | prim (s : String)
  | record (fields : List (String × ResolvedValue))
deriving Repr

/-- A resolved per-entity schema (the `Schema` attached to an entity). -/
abbrev Resolved := List (String × ResolvedValue)

/-- The distinct failure conditions of the transformer, one constructor per
`throw` site, each carrying the name interpolated into the thrown message.
`circularReference t` is `Circular reference detected for type t`;
`notFoundInSchema t` is `t not found in schema`;
`unsupportedSchemaType s` is `The schema type s is not supported`;
`missingModelDirective` and `wrongDirectivePosition` are the two
`DirectiveUsageError` messages of `validateModelDirective`; `fieldNotFound`
is the `validateSchemaFields` message. -/
inductive OramaError where
  | circularReference (typeName : String)
  | notFoundInSchema (typeName : String)
  | unsupportedSchemaType (desc : String)
  | missingModelDirective
  | wrongDirectivePosition
  | fieldNotFound (field : String) (entity : String)
deriving Repr, DecidableEq

/-- Lookup in an association list by key, first binding wins
(`Map.prototype.get` / record indexing). -/
def lookupAssoc {α : Type} : List (String × α) → String → Option α
  | [], _ => none
  | (k', v') :: rest, k => if k' = k then some v' else lookupAssoc rest k

/-- `Map.prototype.has`. -/
def hasKey {α : Type} (m : List (String × α)) (k : String) : Bool :=
  (lookupAssoc m k).isSome

/-- JavaScript record assignment `m[k] = v`: replaces the value in place if
the key is present, otherwise appends the new binding. -/
def recordInsert {α : Type} : List (String × α) → String → α → List (String × α)
  | [], k, v => [(k, v)]
  | (k', v') :: rest, k, v =>
    if k' = k then (k', v) :: rest else (k', v') :: recordInsert rest k v

/-- Modelled from the spec: the fixed set of primitive search-type markers
`VALID_SCHEMA_TYPES` from the repository file `src/directive-args.ts`, which
is not present under `src/`; the spec fixes the primitive markers as
`{string, number, boolean}`. -/
def VALID_SCHEMA_TYPES : List String := ["string", "number", "boolean"]

/-- Modelled from the spec: the fixed scalar table
`GRAPHQL_TYPES_TO_VALID_TYPES` from the repository file
`src/directive-args.ts`, which is not present under `src/`; the spec fixes it
as `String→string, Int→number, Float→number, Boolean→boolean`, with every
other name unmapped. -/
def GRAPHQL_TYPES_TO_VALID_TYPES : List (String × String) :=
  [("String", "string"), ("Int", "number"), ("Float", "number"), ("Boolean", "boolean")]

/-- `getValidSchemaType`: record lookup in the scalar table. -/
def getValidSchemaType (type : String) : Option String :=
  lookupAssoc GRAPHQL_TYPES_TO_VALID_TYPES type

/-- The `while (node.kind !== 'NamedType') node = node.type` unwrapping loop
of `getCorrectType`. -/
def unwrapTypeNode : TypeNode → String
  | .named n => n
  | .list t => unwrapTypeNode t
  | .nonNull t => unwrapTypeNode t

/-- `getCorrectType`: unwrap a type reference to its innermost named type and
attempt the scalar mapping; returns `(validType, type)`. -/
def getCorrectType (node : TypeNode) : Option String × String :=
  (getValidSchemaType (unwrapTypeNode node), unwrapTypeNode node)

/-- `inputDocument.definitions.filter(kind === 'ObjectTypeDefinition')`. -/
def customObjectTypes (d : Document) : List ObjectTypeDef :=
  d.definitions.filterMap fun df =>
    match df with
    | .object o => some o
    | _ => none

/-- `inputDocument.definitions.filter(kind === 'EnumTypeDefinition')`. -/
def customEnumTypes (d : Document) : List EnumTypeDef :=
  d.definitions.filterMap fun df =>
    match df with
    | .enum e => some e
    | _ => none

/-- `customObjectTypes.find(({name}) => name.value === t)`. -/
def findObjectType : List ObjectTypeDef → String → Option ObjectTypeDef
  | [], _ => none
  | o :: rest, t => if o.name = t then some o else findObjectType rest t

/-- `customEnumTypes.find(({name}) => name.value === t)`. -/
def findEnumType : List EnumTypeDef → String → Option EnumTypeDef
  | [], _ => none
  | e :: rest, t => if e.name = t then some e else findEnumType rest t

/-- The `switch (typeof schemaValue)` of `getNonValidSchemaType`: a string
value yields itself, an object-shaped value yields the literal string
`"object"` (the `typeof` tag, which is what the source returns), and any
other kind throws `UnsupportedSchemaTypeError` naming the kind. -/
def rawToName : RawValue → Except OramaError String
  | .str s => .ok s
  | .obj => .ok "object"
  | .other kind => .error (.unsupportedSchemaType kind)

/-- The `.map` pass of `getNonValidSchemaType` over `Object.values(schema)`,
failing at the first unsupported value kind. -/
def rawNames : List RawValue → Except OramaError (List String)
  | [] => .ok []
  | v :: rest =>
    match rawToName v with
    | .error e => .error e
    | .ok n =>
      match rawNames rest with
      | .error e => .error e
      | .ok ns => .ok (n :: ns)

/-- `getNonValidSchemaType`: map every raw shape value to a candidate type
name and keep those not among the primitive markers. -/
def getNonValidSchemaType (schema : Shape) : Except OramaError (List String) :=
  match rawNames (schema.map Prod.snd) with
  | .error e => .error e
  | .ok ns => .ok (ns.filter fun n => decide (n ∉ VALID_SCHEMA_TYPES))

/-- The per-field loop of the worklist's object branch: accumulates the list
`fields` of unmapped type names to push and the per-type field map `tmp`
(`tmp[field.name] = validType ?? type`). -/
def processObjectFieldsAux :
    List FieldDefinition → List String → List (String × String) →
      List String × List (String × String)
  | [], pushes, tmp => (pushes, tmp)
  | fd :: rest, pushes, tmp =>
    match getCorrectType fd.type with
    | (some validType, _) =>
      processObjectFieldsAux rest pushes (recordInsert tmp fd.name validType)
    | (none, t) =>
      processObjectFieldsAux rest (pushes ++ [t]) (recordInsert tmp fd.name t)

/-- Scan of an object type's declared fields during worklist processing. -/
def processObjectFields (fields : List FieldDefinition) :
    List String × List (String × String) :=
  processObjectFieldsAux fields [] []

/-- The `while (notFoundSchemaTypes.length > 0)` worklist loop of `validate`,
with explicit fuel (`none` means the fuel ran out; the source loop has no
bound, and `worklistFuel` below is proved sufficient).  FIFO: `shift` from the
front, `push` to the back. -/
def processWorklist (objs : List ObjectTypeDef) (enums : List EnumTypeDef) :
    Nat → Visited → List String → Option (Except OramaError Visited)
  | 0, _, _ => none
  | fuel + 1, visited, queue =>
    match queue with
    | [] => some (.ok visited)
    | t :: rest =>
      if hasKey visited t then some (.error (.circularReference t))
      else
        match findObjectType objs t with
        | some o =>
          let pr := processObjectFields o.fields
          processWorklist objs enums fuel (visited ++ [(t, .record pr.2)]) (rest ++ pr.1)
        | none =>
          match findEnumType enums t with
          | some e =>
            processWorklist objs enums fuel (visited ++ [(t, .enumMembers e.values)]) rest
          | none => some (.error (.notFoundInSchema t))

/-- All innermost field type names of the document's object types; every name
the worklist loop ever pushes is drawn from this list. -/
def fieldTypeNames (objs : List ObjectTypeDef) : List String :=
  objs.flatMap fun o => o.fields.map fun fd => (getCorrectType fd.type).2

/-- Canonical fuel for the worklist loop, proved sufficient below. -/
def worklistFuel (objs : List ObjectTypeDef) (queue : List String) : Nat :=
  (queue.length + (fieldTypeNames objs).length) * ((fieldTypeNames objs).length + 1) +
    queue.length + 1

/-- The `for ([field, type] of Object.entries(value))` loop inside
`getSchema`, materializing a stored field map into a resolved record;
`g` is the recursive `getSchema` call (at one less fuel). -/
def getSchemaEntriesWith (g : String → Option (Except OramaError ResolvedValue)) :
    List (String × String) → List (String × ResolvedValue) →
      Option (Except OramaError (List (String × ResolvedValue)))
  | [], acc => some (.ok acc)
  | (f, ty) :: rest, acc =>
    match g ty with
    | none => none
    | some (.error e) => some (.error e)
    | some (.ok rv) => getSchemaEntriesWith g rest (recordInsert acc f rv)

/-- The recursive `getSchema` on a string-typed schema value, with explicit
fuel (the source recursion is unbounded; the canonical fuel is proved
sufficient below): a primitive marker is returned unchanged, otherwise the
name is looked up in `visitedTypes` — absence throws
`UnsupportedSchemaTypeError`, an enum member list yields the primitive
`"string"`, a field map is materialized recursively. -/
def getSchemaStr (visited : Visited) (fuel : Nat) : String → Option (Except OramaError ResolvedValue) :=
  Nat.rec (motive := fun _ => String → Option (Except OramaError ResolvedValue))
    (fun _ => none)
    (fun _ ih t =>
      if t ∈ VALID_SCHEMA_TYPES then some (.ok (.prim t))
      else
        match lookupAssoc visited t with
        | none => some (.error (.unsupportedSchemaType t))
        | some (.enumMembers _) => some (.ok (.prim "string"))
        | some (.record tmp) =>
          match getSchemaEntriesWith ih tmp [] with
          | none => none
          | some (.error e) => some (.error e)
          | some (.ok entries) => some (.ok (.record entries)))
    fuel

/-- `getSchema` on a raw shape value.  A string value resolves as above.  An
object-shaped value is never a primitive marker and is never a key of the
string-keyed `visitedTypes` map, so it throws `UnsupportedSchemaTypeError`
(the source interpolates the value into the message, printing
`[object Object]`).  A value of any other kind likewise throws (it cannot
reach this point in `validate`, because `getNonValidSchemaType` already threw). -/
def getSchemaRaw (visited : Visited) (fuel : Nat) : RawValue → Option (Except OramaError ResolvedValue)
  | .str t => getSchemaStr visited fuel t
  | .obj => some (.error (.unsupportedSchemaType "[object Object]"))
  | .other kind => some (.error (.unsupportedSchemaType kind))

/-- The second pass of `validate`: `schema[schemaField] = getSchema(schemaType)`
for every entry of the entity's raw field-shape mapping. -/
def buildSchemaAux (visited : Visited) :
    Shape → Resolved → Option (Except OramaError Resolved)
  | [], acc => some (.ok acc)
  | (f, v) :: rest, acc =>
    match getSchemaRaw visited (visited.length + 1) v with
    | none => none
    | some (.error e) => some (.error e)
    | some (.ok rv) => buildSchemaAux visited rest (recordInsert acc f rv)

/-- Resolution of one annotated entity inside `validate`: collect the pending
type names, run the worklist against the (shared) `visitedTypes`, then
materialize the resolved schema.  Returns the updated `visitedTypes` together
with the entity's resolved schema. -/
def validateEntity (objs : List ObjectTypeDef) (enums : List EnumTypeDef)
    (visited : Visited) (s : Shape) : Option (Except OramaError (Visited × Resolved)) :=
  match getNonValidSchemaType s with
  | .error e => some (.error e)
  | .ok queue =>
    match processWorklist objs enums (worklistFuel objs queue) visited queue with
    | none => none
    | some (.error e) => some (.error e)
    | some (.ok visited2) =>
      match buildSchemaAux visited2 s [] with
      | none => none
      | some (.error e) => some (.error e)
      | some (.ok r) => some (.ok (visited2, r))

/-- The `for (const { directiveArguments } of this.searchableObjectTypeDefinitions)`
loop of `validate`: entities are processed in insertion order and the
`visitedTypes` map — created once, before the loop — is threaded through all
of them. -/
def validateAllAux (objs : List ObjectTypeDef) (enums : List EnumTypeDef) :
    Visited → List Shape → Option (Except OramaError (List Resolved))
  | _, [] => some (.ok [])
  | visited, s :: rest =>
    match validateEntity objs enums visited s with
    | none => none
    | some (.error e) => some (.error e)
    | some (.ok (visited2, r)) =>
      match validateAllAux objs enums visited2 rest with
      | none => none
      | some (.error e) => some (.error e)
      | some (.ok rs) => some (.ok (r :: rs))

/-- `OramaSearchableTransformer.validate`: the shapes are the
`directiveArguments.schema` of the collected annotated entities, in insertion
order; on success every entity is assigned its resolved schema. -/
def validateAll (d : Document) (shapes : List Shape) : Option (Except OramaError (List Resolved)) :=
  validateAllAux (customObjectTypes d) (customEnumTypes d) [] shapes

/-- The searchable directive's name. -/
def directiveName : String := "oramaSearchable"

/-- JavaScript `Array.prototype.indexOf`: index of the first occurrence, or
`-1` when absent. -/
def jsIndexOf : List String → String → Int
  | [], _ => -1
  | x :: rest, s =>
    if x = s then 0
    else
      let r := jsIndexOf rest s
      if r = -1 then -1 else r + 1

/-- `validateModelDirective`: the placement check, taking the names of the
directives attached to the annotated type (`undefined` when the AST node has
no directive list). -/
def validateModelDirective (directives : Option (List String)) : Except OramaError Unit :=
  match directives with
  | none => .error .missingModelDirective
  | some values =>
    if "model" ∈ values then
      if jsIndexOf values "model" + 1 ≠ jsIndexOf values directiveName then
        .error .wrongDirectivePosition
      else .ok ()
    else .error .missingModelDirective

/-- `validateSchemaFields`: every key of the raw shape mapping must be a
declared field of the annotated entity; fails naming the first offending key. -/
def validateSchemaFields (schema : Shape) (definition : ObjectTypeDef) : Except OramaError Unit :=
  match schema with
  | [] => .ok ()
  | (key, _) :: rest =>
    if key ∈ definition.fields.map (fun fd => fd.name) then
      validateSchemaFields rest definition
    else .error (.fieldNotFound key definition.name)

/-- An entry of `this.searchableObjectTypeDefinitions`. -/
structure SearchableDef where
  fieldName : String
  entity : String
  directiveArguments : Shape
deriving Repr, DecidableEq

/-- The synthesized query field name
`graphqlName('search' + plurality(toUpper(name), true))`; `plurality`,
`toUpper` and `graphqlName` are external `graphql-transformer-common`
helpers, kept abstract as function parameters. -/
def searchFieldName (pl up gq : String → String) (entity : String) : String :=
  gq ("search" ++ pl (up entity))

/-- `OramaSearchableTransformer.object`: the visit of one annotated type —
placement check, argument extraction (already decoded into `args`),
field-name subset check, then the `searchableObjectTypeDefinitions` record. -/
def objectVisit (pl up gq : String → String) (definition : ObjectTypeDef)
    (directives : Option (List String)) (args : Shape) : Except OramaError SearchableDef :=
  match validateModelDirective directives with
  | .error e => .error e
  | .ok _ =>
    match validateSchemaFields args definition with
    | .error e => .error e
    | .ok _ =>
      .ok { fieldName := searchFieldName pl up gq definition.name
            entity := definition.name
            directiveArguments := args }

/-- A synthesized query field: name, arguments (name and type each) and
return type, as assembled by `makeField`/`makeInputValueDefinition`/
`makeNamedType`/`makeListType`/`makeNonNullType` of
`graphql-transformer-common` (external constructors modelled structurally). -/
structure FieldSpec where
  name : String
  args : List (String × TypeNode)
  type : TypeNode
deriving Repr, DecidableEq

/-- `OramaSearchableTransformer.transformSchema`: one query field per
collected entity — `fieldName(term: String, limit: Int): [entity]!`. -/
def transformSchemaFields (defs : List SearchableDef) : List FieldSpec :=
  defs.map fun d =>
    { name := d.fieldName
      args := [("term", TypeNode.named "String"), ("limit", TypeNode.named "Int")]
      type := TypeNode.nonNull (.list (.named d.entity)) }

/-- The keys of an association list are pairwise distinct.  The worklist loop
maintains this for `visitedTypes`: a name is inserted only after the
`has`-check failed. -/
def keysNodup {α : Type} (m : List (String × α)) : Prop :=
  (m.map Prod.fst).Nodup

/-- Invariant of the worklist loop relating `visitedTypes` to the pending
queue: every non-primitive name stored in a record entry of the index is
either bound later in the index or still pending in the queue.  With an empty
queue this says the index is topologically ordered (references point strictly
forward), which bounds the recursion depth of `getSchema`. -/
def WFq : Visited → List String → Prop
  | [], _ => True
  | (_, .enumMembers _) :: rest, q => WFq rest q
  | (_, .record tmp) :: rest, q =>
    (∀ p ∈ tmp, p.2 ∈ VALID_SCHEMA_TYPES ∨ hasKey rest p.2 = true ∨ p.2 ∈ q) ∧ WFq rest q

/-! ### Concrete instances used by the claim theorems -/

/-- The document of end-to-end scenario A (the happy-case test): `Post`,
enum `S3Accesslevel`, `S3Object`, `YetAnotherType`. -/
def scenarioADoc : Document := ⟨[
  .object ⟨"Post", [⟨"id", .nonNull (.named "ID")⟩, ⟨"title", .nonNull (.named "String")⟩,
    ⟨"updatedAt", .nonNull (.named "AWSDateTime")⟩, ⟨"createdAt", .nonNull (.named "AWSDateTime")⟩,
    ⟨"picture", .named "S3Object"⟩]⟩,
  .enum ⟨"S3Accesslevel", ["private", "public"]⟩,
  .object ⟨"S3Object", [⟨"bucket", .nonNull (.named "String")⟩, ⟨"region", .nonNull (.named "String")⟩,
    ⟨"key", .nonNull (.named "String")⟩, ⟨"accessLevel", .nonNull (.named "S3Accesslevel")⟩,
    ⟨"uselessType", .named "YetAnotherType"⟩]⟩,
  .object ⟨"YetAnotherType", [⟨"index", .named "Int"⟩, ⟨"uselessType", .named "Float"⟩]⟩]⟩

/-- The `schema` argument of the directive on `Post` in scenario A. -/
def scenarioAShape : Shape := [("id", .str "string"), ("picture", .str "S3Object")]

/-- The resolved schema scenario A is specified to produce. -/
def scenarioAResolved : Resolved :=
  [("id", .prim "string"),
   ("picture", .record [("bucket", .prim "string"), ("region", .prim "string"),
     ("key", .prim "string"), ("accessLevel", .prim "string"),
     ("uselessType", .record [("index", .prim "number"), ("uselessType", .prim "number")])])]

/-- A one-object document: `T1 { x: String }`, acyclic. -/
def c9Doc : Document := ⟨[.object ⟨"T1", [⟨"x", .named "String"⟩]⟩]⟩

/-- A one-object document: `TE { x: String }`, acyclic. -/
def c1Doc : Document := ⟨[.object ⟨"TE", [⟨"x", .named "String"⟩]⟩]⟩

/-- A two-object document forming the reference cycle `A → B → A`. -/
def c4Doc : Document := ⟨[
  .object ⟨"A", [⟨"b", .named "B"⟩]⟩,
  .object ⟨"B", [⟨"a", .named "A"⟩]⟩]⟩

/-! ### Unfolding lemmas -/

@[simp] theorem getSchemaStr_zero (visited : Visited) (t : String) :
    getSchemaStr visited 0 t = none := rfl

theorem getSchemaStr_succ (visited : Visited) (fuel : Nat) (t : String) :
    getSchemaStr visited (fuel + 1) t =
      (if t ∈ VALID_SCHEMA_TYPES then some (.ok (.prim t))
       else
         match lookupAssoc visited t with
         | none => some (.error (.unsupportedSchemaType t))
         | some (.enumMembers _) => some (.ok (.prim "string"))
         | some (.record tmp) =>
           match getSchemaEntriesWith (getSchemaStr visited fuel) tmp [] with
           | none => none
           | some (.error e) => some (.error e)
           | some (.ok entries) => some (.ok (.record entries))) := rfl

/-! ### Association list lemmas -/

@[simp] theorem lookupAssoc_nil {α : Type} (k : String) :
    lookupAssoc ([] : List (String × α)) k = none := rfl

theorem lookupAssoc_cons {α : Type} (k' : String) (v' : α) (rest : List (String × α)) (k : String) :
    lookupAssoc ((k', v') :: rest) k = if k' = k then some v' else lookupAssoc rest k := rfl

theorem lookupAssoc_append_left {α : Type} (m₁ m₂ : List (String × α)) (k : String) (v : α)
    (h : lookupAssoc m₁ k = some v) : lookupAssoc (m₁ ++ m₂) k = some v := by
  induction m₁ with
  | nil => simp at h
  | cons hd tl ih =>
    obtain ⟨k', v'⟩ := hd
    rw [List.cons_append, lookupAssoc_cons]
    rw [lookupAssoc_cons] at h
    split at h
    · simp_all
    · simp_all [ih h]

theorem lookupAssoc_append_right {α : Type} (m₁ m₂ : List (String × α)) (k : String)
    (h : lookupAssoc m₁ k = none) : lookupAssoc (m₁ ++ m₂) k = lookupAssoc m₂ k := by
  induction m₁ with
  | nil => simp
  | cons hd tl ih =>
    obtain ⟨k', v'⟩ := hd
    rw [List.cons_append, lookupAssoc_cons]
    rw [lookupAssoc_cons] at h
    split at h
    · simp at h
    · simp_all [ih h]

theorem lookupAssoc_eq_none_iff {α : Type} (m : List (String × α)) (k : String) :
    lookupAssoc m k = none ↔ k ∉ m.map Prod.fst := by
  induction m with
  | nil => simp
  | cons hd tl ih =>
    obtain ⟨k', v'⟩ := hd
    rw [lookupAssoc_cons]
    by_cases he : k' = k
    · subst he
      simp
    · rw [if_neg he]
      rw [ih]
      simp only [List.map_cons, List.mem_cons]
      constructor
      · intro h hc
        rcases hc with hc | hc
        · exact he hc.symm
        · exact h hc
      · intro h hc
        exact h (Or.inr hc)

theorem hasKey_true_iff {α : Type} (m : List (String × α)) (k : String) :
    hasKey m k = true ↔ k ∈ m.map Prod.fst := by
  unfold hasKey
  rw [Option.isSome_iff_ne_none]
  constructor
  · intro h
    by_contra hmem
    exact h ((lookupAssoc_eq_none_iff m k).mpr hmem)
  · intro h hn
    exact ((lookupAssoc_eq_none_iff m k).mp hn) h

theorem hasKey_false_iff {α : Type} (m : List (String × α)) (k : String) :
    hasKey m k = false ↔ k ∉ m.map Prod.fst := by
  rw [← hasKey_true_iff]
  simp

theorem lookupAssoc_some_decomp {α : Type} (m : List (String × α)) (k : String) (v : α)
    (h : lookupAssoc m k = some v) : ∃ pre post, m = pre ++ (k, v) :: post := by
  induction m with
  | nil => simp at h
  | cons hd tl ih =>
    obtain ⟨k', v'⟩ := hd
    rw [lookupAssoc_cons] at h
    split at h
    · refine ⟨[], tl, ?_⟩
      simp_all
    · obtain ⟨pre, post, hpp⟩ := ih h
      exact ⟨(k', v') :: pre, post, by simp [hpp]⟩

theorem lookupAssoc_of_decomp_nodup {α : Type} (m pre post : List (String × α)) (k : String) (v : α)
    (hn : keysNodup m) (hd : m = pre ++ (k, v) :: post) : lookupAssoc m k = some v := by
  subst hd
  have hk : k ∉ pre.map Prod.fst := by
    unfold keysNodup at hn
    simp only [List.map_append, List.map_cons, List.nodup_append] at hn
    intro hmem
    exact hn.2.2 hmem (by simp)
  rw [lookupAssoc_append_right pre _ k ((lookupAssoc_eq_none_iff pre k).mpr hk)]
  simp [lookupAssoc_cons]

theorem recordInsert_mem {α : Type} (m : List (String × α)) (k : String) (v : α)
    (p : String × α) (h : p ∈ recordInsert m k v) : p ∈ m ∨ p = (k, v) := by
  induction m with
  | nil => simp_all [recordInsert]
  | cons hd tl ih =>
    unfold recordInsert at h
    split at h
    · rcases List.mem_cons.mp h with h1 | h1
      · right
        simp_all [Prod.ext_iff]
      · left
        exact List.mem_cons_of_mem _ h1
    · rcases List.mem_cons.mp h with h1 | h1
      · left
        simp [h1]
      · rcases ih h1 with h2 | h2
        · exact Or.inl (List.mem_cons_of_mem _ h2)
        · exact Or.inr h2

theorem recordInsert_lookup_self {α : Type} (m : List (String × α)) (k : String) (v : α) :
    lookupAssoc (recordInsert m k v) k = some v := by
  induction m with
  | nil => simp [recordInsert, lookupAssoc]
  | cons hd tl ih =>
    unfold recordInsert
    split
    · simp_all [lookupAssoc]
    · unfold lookupAssoc
      simp_all

theorem recordInsert_lookup_ne {α : Type} (m : List (String × α)) (k k' : String) (v : α)
    (h : k' ≠ k) : lookupAssoc (recordInsert m k v) k' = lookupAssoc m k' := by
  induction m with
  | nil =>
    rw [show recordInsert ([] : List (String × α)) k v = [(k, v)] from rfl, lookupAssoc_cons]
    rw [if_neg (fun he => h he.symm)]
  | cons hd tl ih =>
    obtain ⟨k0, v0⟩ := hd
    unfold recordInsert
    split
    · rename_i he
      have hne : ¬(k0 = k') := by
        rw [he]
        exact fun hee => h hee.symm
      rw [lookupAssoc_cons, lookupAssoc_cons, if_neg hne, if_neg hne]
    · rw [lookupAssoc_cons, lookupAssoc_cons]
      split
      · rfl
      · exact ih

theorem recordInsert_of_not_mem {α : Type} (m : List (String × α)) (k : String) (v : α)
    (h : k ∉ m.map Prod.fst) : recordInsert m k v = m ++ [(k, v)] := by
  induction m with
  | nil => simp [recordInsert]
  | cons hd tl ih =>
    unfold recordInsert
    rw [if_neg (by simp_all [eq_comm])]
    simp_all

/-! ### Filter length lemmas -/

theorem filter_length_mono {α : Type} (l : List α) (p q : α → Bool)
    (h : ∀ x, q x = true → p x = true) : (l.filter q).length ≤ (l.filter p).length := by
  induction l with
  | nil => simp
  | cons hd tl ih =>
    by_cases hq : q hd = true
    · simp [List.filter_cons, hq, h hd hq]
      omega
    · simp only [List.filter_cons]
      rw [if_neg (by simp_all)]
      split
      · simp
        omega
      · exact ih

theorem filter_length_lt {α : Type} (l : List α) (p q : α → Bool) (t : α)
    (ht : t ∈ l) (hp : p t = true) (hq : q t = false)
    (h : ∀ x, q x = true → p x = true) : (l.filter q).length < (l.filter p).length := by
  induction l with
  | nil => simp at ht
  | cons hd tl ih =>
    rcases List.mem_cons.mp ht with rfl | hmem
    · simp only [List.filter_cons, hp, if_pos]
      rw [if_neg (by simp [hq])]
      simp only [List.length_cons]
      exact Nat.lt_succ_of_le (filter_length_mono tl p q h)
    · simp only [List.filter_cons]
      by_cases hqh : q hd = true
      · rw [if_pos (by simp [hqh]), if_pos (by simp [h hd hqh])]
        simpa using ih hmem
      · rw [if_neg (by simp_all)]
        split
        · simpa using Nat.lt_succ_of_lt (ih hmem)
        · exact ih hmem

/-! ### Field scan lemmas -/

theorem getValidSchemaType_mem_valid (s v : String) (h : getValidSchemaType s = some v) :
    v ∈ VALID_SCHEMA_TYPES := by
  unfold getValidSchemaType GRAPHQL_TYPES_TO_VALID_TYPES at h
  simp only [lookupAssoc_cons, lookupAssoc_nil] at h
  split_ifs at h <;> simp_all [VALID_SCHEMA_TYPES]

theorem processObjectFieldsAux_spec (fields : List FieldDefinition) :
    ∀ (pushes : List String) (tmp : List (String × String)),
      (∀ n ∈ pushes, n ∈ (processObjectFieldsAux fields pushes tmp).1) ∧
      (∀ p ∈ (processObjectFieldsAux fields pushes tmp).2,
        p ∈ tmp ∨ p.2 ∈ VALID_SCHEMA_TYPES ∨ p.2 ∈ (processObjectFieldsAux fields pushes tmp).1) := by
  induction fields with
  | nil =>
    intro pushes tmp
    exact ⟨fun n hn => hn, fun p hp => Or.inl hp⟩
  | cons fd rest ih =>
    intro pushes tmp
    rcases hgc : getCorrectType fd.type with ⟨ov, t⟩
    cases ov with
    | some v =>
      have hv : v ∈ VALID_SCHEMA_TYPES := by
        unfold getCorrectType at hgc
        simp only [Prod.mk.injEq] at hgc
        exact getValidSchemaType_mem_valid _ v hgc.1
      have hred : processObjectFieldsAux (fd :: rest) pushes tmp =
          processObjectFieldsAux rest pushes (recordInsert tmp fd.name v) := by
        simp only [processObjectFieldsAux, hgc]
      rw [hred]
      refine ⟨(ih pushes _).1, fun p hp => ?_⟩
      rcases (ih pushes _).2 p hp with hp' | h2 | h3
      · rcases recordInsert_mem tmp fd.name v p hp' with hm | hm
        · exact Or.inl hm
        · exact Or.inr (Or.inl (by rw [hm]; exact hv))
      · exact Or.inr (Or.inl h2)
      · exact Or.inr (Or.inr h3)
    | none =>
      have hred : processObjectFieldsAux (fd :: rest) pushes tmp =
          processObjectFieldsAux rest (pushes ++ [t]) (recordInsert tmp fd.name t) := by
        simp only [processObjectFieldsAux, hgc]
      rw [hred]
      refine ⟨fun n hn => (ih _ _).1 n (List.mem_append_left _ hn), fun p hp => ?_⟩
      rcases (ih _ _).2 p hp with hp' | h2 | h3
      · rcases recordInsert_mem tmp fd.name t p hp' with hm | hm
        · exact Or.inl hm
        · refine Or.inr (Or.inr ?_)
          have ht : p.2 ∈ pushes ++ [t] := by
            rw [hm]
            simp
          exact (ih _ _).1 p.2 ht
      · exact Or.inr (Or.inl h2)
      · exact Or.inr (Or.inr h3)

theorem processObjectFieldsAux_push_len (fields : List FieldDefinition) :
    ∀ (pushes : List String) (tmp : List (String × String)),
      (processObjectFieldsAux fields pushes tmp).1.length ≤ pushes.length + fields.length := by
  induction fields with
  | nil =>
    intro pushes tmp
    simp [processObjectFieldsAux]
  | cons fd rest ih =>
    intro pushes tmp
    rcases hgc : getCorrectType fd.type with ⟨ov, t⟩
    cases ov with
    | some v =>
      have hred : processObjectFieldsAux (fd :: rest) pushes tmp =
          processObjectFieldsAux rest pushes (recordInsert tmp fd.name v) := by
        simp only [processObjectFieldsAux, hgc]
      rw [hred]
      calc (processObjectFieldsAux rest pushes _).1.length
          ≤ pushes.length + rest.length := ih pushes _
        _ ≤ pushes.length + (fd :: rest).length := by simp
    | none =>
      have hred : processObjectFieldsAux (fd :: rest) pushes tmp =
          processObjectFieldsAux rest (pushes ++ [t]) (recordInsert tmp fd.name t) := by
        simp only [processObjectFieldsAux, hgc]
      rw [hred]
      calc (processObjectFieldsAux rest (pushes ++ [t]) _).1.length
          ≤ (pushes ++ [t]).length + rest.length := ih _ _
        _ = pushes.length + (fd :: rest).length := by
              simp
              omega

theorem processObjectFieldsAux_push_src (fields : List FieldDefinition) :
    ∀ (pushes : List String) (tmp : List (String × String)),
      ∀ n ∈ (processObjectFieldsAux fields pushes tmp).1,
        n ∈ pushes ∨ n ∈ fields.map (fun fd => (getCorrectType fd.type).2) := by
  induction fields with
  | nil =>
    intro pushes tmp n hn
    exact Or.inl hn
  | cons fd rest ih =>
    intro pushes tmp n hn
    rcases hgc : getCorrectType fd.type with ⟨ov, t⟩
    cases ov with
    | some v =>
      have hred : processObjectFieldsAux (fd :: rest) pushes tmp =
          processObjectFieldsAux rest pushes (recordInsert tmp fd.name v) := by
        simp only [processObjectFieldsAux, hgc]
      rw [hred] at hn
      rcases ih pushes _ n hn with h | h
      · exact Or.inl h
      · exact Or.inr (by simp [h])
    | none =>
      have hred : processObjectFieldsAux (fd :: rest) pushes tmp =
          processObjectFieldsAux rest (pushes ++ [t]) (recordInsert tmp fd.name t) := by
        simp only [processObjectFieldsAux, hgc]
      rw [hred] at hn
      rcases ih _ _ n hn with h | h
      · rcases List.mem_append.mp h with h1 | h1
        · exact Or.inl h1
        · refine Or.inr ?_
          simp only [List.mem_singleton] at h1
          simp [h1, hgc]
      · exact Or.inr (by simp [h])

theorem findObjectType_mem (objs : List ObjectTypeDef) (t : String) (o : ObjectTypeDef)
    (h : findObjectType objs t = some o) : o ∈ objs := by
  induction objs with
  | nil => simp [findObjectType] at h
  | cons hd tl ih =>
    unfold findObjectType at h
    split at h
    · simp at h
      simp [h]
    · exact List.mem_cons_of_mem _ (ih h)

theorem mem_fieldTypeNames (objs : List ObjectTypeDef) (o : ObjectTypeDef) (ho : o ∈ objs)
    (n : String) (hn : n ∈ o.fields.map fun fd => (getCorrectType fd.type).2) :
    n ∈ fieldTypeNames objs := by
  unfold fieldTypeNames
  exact List.mem_flatMap.mpr ⟨o, ho, hn⟩

theorem fields_length_le (objs : List ObjectTypeDef) (o : ObjectTypeDef) (ho : o ∈ objs) :
    o.fields.length ≤ (fieldTypeNames objs).length := by
  induction objs with
  | nil => simp at ho
  | cons hd tl ih =>
    unfold fieldTypeNames
    rw [List.flatMap_cons, List.length_append]
    rcases List.mem_cons.mp ho with rfl | hmem
    · simp
    · have := ih hmem
      unfold fieldTypeNames at this
      omega

/-! ### hasKey helper lemmas -/

theorem hasKey_exists_iff {α : Type} (m : List (String × α)) (k : String) :
    hasKey m k = true ↔ ∃ v, lookupAssoc m k = some v := by
  unfold hasKey
  cases h : lookupAssoc m k <;> simp

theorem hasKey_append_left {α : Type} (m₁ m₂ : List (String × α)) (k : String)
    (h : hasKey m₁ k = true) : hasKey (m₁ ++ m₂) k = true := by
  obtain ⟨v, hv⟩ := (hasKey_exists_iff m₁ k).mp h
  unfold hasKey
  rw [lookupAssoc_append_left _ _ _ _ hv]
  rfl

theorem hasKey_false_lookup_none {α : Type} (m : List (String × α)) (k : String)
    (h : hasKey m k = false) : lookupAssoc m k = none := by
  unfold hasKey at h
  cases hl : lookupAssoc m k with
  | none => rfl
  | some v =>
    rw [hl] at h
    simp at h

theorem hasKey_append_self {α : Type} (m : List (String × α)) (k : String) (v : α) :
    hasKey (m ++ [(k, v)]) k = true := by
  cases hl : lookupAssoc m k with
  | some w =>
    refine hasKey_append_left _ _ _ ?_
    unfold hasKey
    rw [hl]
    rfl
  | none =>
    unfold hasKey
    rw [lookupAssoc_append_right _ _ _ hl, lookupAssoc_cons, if_pos rfl]
    rfl

/-! ### Worklist unfolding and termination -/

theorem processWorklist_cons (objs : List ObjectTypeDef) (enums : List EnumTypeDef)
    (fuel : Nat) (visited : Visited) (t : String) (rest : List String) :
    processWorklist objs enums (fuel + 1) visited (t :: rest) =
      (if hasKey visited t then some (.error (.circularReference t))
       else
         match findObjectType objs t with
         | some o =>
           processWorklist objs enums fuel
             (visited ++ [(t, .record (processObjectFields o.fields).2)])
             (rest ++ (processObjectFields o.fields).1)
         | none =>
           match findEnumType enums t with
           | some e =>
             processWorklist objs enums fuel (visited ++ [(t, .enumMembers e.values)]) rest
           | none => some (.error (.notFoundInSchema t))) := rfl

@[simp] theorem processWorklist_nil (objs : List ObjectTypeDef) (enums : List EnumTypeDef)
    (fuel : Nat) (visited : Visited) :
    processWorklist objs enums (fuel + 1) visited [] = some (.ok visited) := rfl

theorem processWorklist_fuel_suff (objs : List ObjectTypeDef) (enums : List EnumTypeDef)
    (U : List String) (hFT : ∀ n ∈ fieldTypeNames objs, n ∈ U) :
    ∀ (fuel : Nat) (visited : Visited) (queue : List String),
      (∀ n ∈ queue, n ∈ U) →
      (U.filter fun n => !hasKey visited n).length * ((fieldTypeNames objs).length + 1) +
          queue.length < fuel →
      processWorklist objs enums fuel visited queue ≠ none := by
  intro fuel
  induction fuel with
  | zero =>
    intro visited queue _ hlt
    exact absurd hlt (Nat.not_lt_zero _)
  | succ m ih =>
    intro visited queue hq hlt
    cases queue with
    | nil => simp
    | cons t rest =>
      rw [processWorklist_cons]
      by_cases hk : hasKey visited t
      · simp [hk]
      · rw [if_neg hk]
        have hkf : hasKey visited t = false := by
          revert hk
          cases hasKey visited t <;> simp
        have htU : t ∈ U := hq t (List.mem_cons_self t rest)
        have hstep : ∀ xval : VisitedValue,
            (U.filter fun n => !hasKey (visited ++ [(t, xval)]) n).length + 1 ≤
              (U.filter fun n => !hasKey visited n).length := by
          intro xval
          have hlt2 := filter_length_lt U (fun n => !hasKey visited n)
            (fun n => !hasKey (visited ++ [(t, xval)]) n) t htU
            (by simp [hkf])
            (by simp [hasKey_append_self])
            ?_
          · omega
          · intro x hx
            simp only [Bool.not_eq_true'] at hx ⊢
            by_contra hpx
            have hkx : hasKey visited x = true := by
              revert hpx
              cases hasKey visited x <;> simp
            have h2 := hasKey_append_left visited [(t, xval)] x hkx
            rw [h2] at hx
            simp at hx
        have hmono : ∀ xval : VisitedValue,
            (U.filter fun n => !hasKey (visited ++ [(t, xval)]) n).length ≤
              (U.filter fun n => !hasKey visited n).length := by
          intro xval
          have := hstep xval
          omega
        cases hfo : findObjectType objs t with
        | some o =>
          have hqsub : ∀ n ∈ rest ++ (processObjectFields o.fields).1, n ∈ U := by
            intro n hn
            rcases List.mem_append.mp hn with h1 | h1
            · exact hq n (List.mem_cons_of_mem _ h1)
            · rcases processObjectFieldsAux_push_src o.fields [] [] n h1 with h2 | h2
              · simp at h2
              · exact hFT n (mem_fieldTypeNames objs o (findObjectType_mem _ _ _ hfo) n h2)
          refine ih _ _ hqsub ?_
          have hp1 : (processObjectFields o.fields).1.length ≤ o.fields.length := by
            have := processObjectFieldsAux_push_len o.fields [] []
            simpa using this
          have hp2 : o.fields.length ≤ (fieldTypeNames objs).length :=
            fields_length_le objs o (findObjectType_mem _ _ _ hfo)
          have hmul := Nat.mul_le_mul_right ((fieldTypeNames objs).length + 1)
            (hstep (.record (processObjectFields o.fields).2))
          rw [Nat.succ_mul] at hmul
          simp only [List.length_append, List.length_cons] at hlt ⊢
          generalize hA : (U.filter fun n =>
            !hasKey (visited ++ [(t, VisitedValue.record (processObjectFields o.fields).2)]) n).length *
            ((fieldTypeNames objs).length + 1) = a at hmul ⊢
          generalize hB : (U.filter fun n => !hasKey visited n).length *
            ((fieldTypeNames objs).length + 1) = b at hmul hlt
          omega
        | none =>
          cases hfe : findEnumType enums t with
          | some e =>
            refine ih _ _ (fun n hn => hq n (List.mem_cons_of_mem _ hn)) ?_
            have hmul := Nat.mul_le_mul_right ((fieldTypeNames objs).length + 1)
              (hmono (.enumMembers e.values))
            simp only [List.length_cons] at hlt
            generalize hA : (U.filter fun n =>
              !hasKey (visited ++ [(t, VisitedValue.enumMembers e.values)]) n).length *
              ((fieldTypeNames objs).length + 1) = a at hmul ⊢
            generalize hB : (U.filter fun n => !hasKey visited n).length *
              ((fieldTypeNames objs).length + 1) = b at hmul hlt
            omega
          | none =>
            simp

/-! ### Invariant preservation of the worklist loop -/

theorem WFq_mono (v : Visited) : ∀ (q q' : List String),
    (∀ n ∈ q, n ∈ q') → WFq v q → WFq v q' := by
  induction v with
  | nil =>
    intro q q' _ _
    trivial
  | cons hd v' ih =>
    intro q q' hsub h
    obtain ⟨k, val⟩ := hd
    cases val with
    | enumMembers vs => exact ih q q' hsub h
    | record tmp =>
      obtain ⟨htmp, hrest⟩ := h
      refine ⟨fun p hp => ?_, ih q q' hsub hrest⟩
      rcases htmp p hp with h1 | h1 | h1
      · exact Or.inl h1
      · exact Or.inr (Or.inl h1)
      · exact Or.inr (Or.inr (hsub _ h1))

theorem WFq_append (v : Visited) (t : String) (rest : List String) (q' : List String)
    (xval : VisitedValue) (h : WFq v (t :: rest)) (hrest : ∀ n ∈ rest, n ∈ q')
    (hnew : ∀ tmp, xval = .record tmp → ∀ p ∈ tmp, p.2 ∈ VALID_SCHEMA_TYPES ∨ p.2 ∈ q') :
    WFq (v ++ [(t, xval)]) q' := by
  induction v with
  | nil =>
    cases xval with
    | enumMembers vs => trivial
    | record tmp =>
      refine ⟨fun p hp => ?_, trivial⟩
      rcases hnew tmp rfl p hp with h1 | h1
      · exact Or.inl h1
      · exact Or.inr (Or.inr h1)
  | cons hd v' ih =>
    obtain ⟨k, val⟩ := hd
    cases val with
    | enumMembers vs => exact ih h
    | record tmp =>
      obtain ⟨htmp, hrest'⟩ := h
      refine ⟨fun p hp => ?_, ih hrest'⟩
      rcases htmp p hp with h1 | h1 | h1
      · exact Or.inl h1
      · exact Or.inr (Or.inl (hasKey_append_left _ _ _ h1))
      · rcases List.mem_cons.mp h1 with rfl | h2
        · exact Or.inr (Or.inl (hasKey_append_self _ _ _))
        · exact Or.inr (Or.inr (hrest _ h2))

theorem keysNodup_append (v : Visited) (t : String) (xval : VisitedValue)
    (h : keysNodup v) (hk : hasKey v t = false) : keysNodup (v ++ [(t, xval)]) := by
  unfold keysNodup at h ⊢
  rw [List.map_append]
  rw [List.nodup_append]
  refine ⟨h, by simp, ?_⟩
  intro a ha
  simp only [List.map_cons, List.map_nil, List.mem_singleton]
  intro hat
  subst hat
  have := (lookupAssoc_eq_none_iff v a).mp (hasKey_false_lookup_none v a hk)
  exact this ha

theorem processWorklist_preserves (objs : List ObjectTypeDef) (enums : List EnumTypeDef) :
    ∀ (fuel : Nat) (visited : Visited) (queue : List String) (v2 : Visited),
      processWorklist objs enums fuel visited queue = some (.ok v2) →
      keysNodup visited → WFq visited queue →
      keysNodup v2 ∧ WFq v2 [] := by
  intro fuel
  induction fuel with
  | zero =>
    intro visited queue v2 h _ _
    simp [processWorklist] at h
  | succ m ih =>
    intro visited queue v2 h hnd hwf
    cases queue with
    | nil =>
      rw [processWorklist_nil] at h
      obtain rfl : visited = v2 := by
        simpa using h
      exact ⟨hnd, hwf⟩
    | cons t rest =>
      rw [processWorklist_cons] at h
      by_cases hk : hasKey visited t
      · rw [if_pos hk] at h
        simp at h
      · rw [if_neg hk] at h
        have hkf : hasKey visited t = false := by
          revert hk
          cases hasKey visited t <;> simp
        cases hfo : findObjectType objs t with
        | some o =>
          rw [hfo] at h
          refine ih _ _ _ h (keysNodup_append _ _ _ hnd hkf) ?_
          refine WFq_append visited t rest _ _ hwf
            (fun n hn => List.mem_append_left _ hn) ?_
          intro tmp htmp p hp
          have htmp2 : tmp = (processObjectFields o.fields).2 := by
            injection htmp.symm
          subst htmp2
          rcases (processObjectFieldsAux_spec o.fields [] []).2 p hp with h1 | h1 | h1
          · simp at h1
          · exact Or.inl h1
          · exact Or.inr (List.mem_append_right _ h1)
        | none =>
          rw [hfo] at h
          cases hfe : findEnumType enums t with
          | some e =>
            rw [hfe] at h
            refine ih _ _ _ h (keysNodup_append _ _ _ hnd hkf) ?_
            refine WFq_append visited t rest _ _ hwf (fun n hn => hn) ?_
            intro tmp htmp
            cases htmp
          | none =>
            rw [hfe] at h
            simp at h

theorem processWorklist_mono (objs : List ObjectTypeDef) (enums : List EnumTypeDef) :
    ∀ (fuel : Nat) (visited : Visited) (queue : List String) (v2 : Visited),
      processWorklist objs enums fuel visited queue = some (.ok v2) →
      ∀ (k : String) (val : VisitedValue),
        lookupAssoc visited k = some val → lookupAssoc v2 k = some val := by
  intro fuel
  induction fuel with
  | zero =>
    intro visited queue v2 h
    simp [processWorklist] at h
  | succ m ih =>
    intro visited queue v2 h k val hl
    cases queue with
    | nil =>
      rw [processWorklist_nil] at h
      obtain rfl : visited = v2 := by simpa using h
      exact hl
    | cons t rest =>
      rw [processWorklist_cons] at h
      by_cases hk : hasKey visited t
      · rw [if_pos hk] at h
        simp at h
      · rw [if_neg hk] at h
        cases hfo : findObjectType objs t with
        | some o =>
          rw [hfo] at h
          exact ih _ _ _ h k val (lookupAssoc_append_left _ _ _ _ hl)
        | none =>
          rw [hfo] at h
          cases hfe : findEnumType enums t with
          | some e =>
            rw [hfe] at h
            exact ih _ _ _ h k val (lookupAssoc_append_left _ _ _ _ hl)
          | none =>
            rw [hfe] at h
            simp at h

theorem processWorklist_queue_visited (objs : List ObjectTypeDef) (enums : List EnumTypeDef) :
    ∀ (fuel : Nat) (visited : Visited) (queue : List String) (v2 : Visited),
      processWorklist objs enums fuel visited queue = some (.ok v2) →
      ∀ n ∈ queue, hasKey v2 n = true := by
  intro fuel
  induction fuel with
  | zero =>
    intro visited queue v2 h
    simp [processWorklist] at h
  | succ m ih =>
    intro visited queue v2 h n hn
    cases queue with
    | nil => simp at hn
    | cons t rest =>
      rw [processWorklist_cons] at h
      by_cases hk : hasKey visited t
      · rw [if_pos hk] at h
        simp at h
      · rw [if_neg hk] at h
        cases hfo : findObjectType objs t with
        | some o =>
          rw [hfo] at h
          rcases List.mem_cons.mp hn with rfl | hmem
          · have hself : lookupAssoc (visited ++ [(n, VisitedValue.record (processObjectFields o.fields).2)]) n =
                some (.record (processObjectFields o.fields).2) := by
              rw [lookupAssoc_append_right _ _ _ (hasKey_false_lookup_none _ _ (by revert hk; cases hasKey visited n <;> simp))]
              rw [lookupAssoc_cons, if_pos rfl]
            have := processWorklist_mono objs enums m _ _ _ h n _ hself
            rw [hasKey_exists_iff]
            exact ⟨_, this⟩
          · exact ih _ _ _ h n (List.mem_append_left _ hmem)
        | none =>
          rw [hfo] at h
          cases hfe : findEnumType enums t with
          | some e =>
            rw [hfe] at h
            rcases List.mem_cons.mp hn with rfl | hmem
            · have hself : lookupAssoc (visited ++ [(n, VisitedValue.enumMembers e.values)]) n =
                  some (.enumMembers e.values) := by
                rw [lookupAssoc_append_right _ _ _ (hasKey_false_lookup_none _ _ (by revert hk; cases hasKey visited n <;> simp))]
                rw [lookupAssoc_cons, if_pos rfl]
              have := processWorklist_mono objs enums m _ _ _ h n _ hself
              rw [hasKey_exists_iff]
              exact ⟨_, this⟩
            · exact ih _ _ _ h n hmem
          | none =>
            rw [hfe] at h
            simp at h

theorem processWorklist_enum (objs : List ObjectTypeDef) (enums : List EnumTypeDef)
    (E : String) (en : EnumTypeDef) (hobj : findObjectType objs E = none)
    (henum : findEnumType enums E = some en) :
    ∀ (fuel : Nat) (visited : Visited) (queue : List String) (v2 : Visited),
      processWorklist objs enums fuel visited queue = some (.ok v2) →
      (E ∈ queue ∨ lookupAssoc visited E = some (.enumMembers en.values)) →
      lookupAssoc v2 E = some (.enumMembers en.values) := by
  intro fuel
  induction fuel with
  | zero =>
    intro visited queue v2 h
    simp [processWorklist] at h
  | succ m ih =>
    intro visited queue v2 h hE
    cases queue with
    | nil =>
      rw [processWorklist_nil] at h
      obtain rfl : visited = v2 := by simpa using h
      rcases hE with hE | hE
      · simp at hE
      · exact hE
    | cons t rest =>
      rw [processWorklist_cons] at h
      by_cases hk : hasKey visited t
      · rw [if_pos hk] at h
        simp at h
      · rw [if_neg hk] at h
        cases hfo : findObjectType objs t with
        | some o =>
          rw [hfo] at h
          rcases hE with hE | hE
          · rcases List.mem_cons.mp hE with rfl | hmem
            · rw [hfo] at hobj
              cases hobj
            · exact ih _ _ _ h (Or.inl (List.mem_append_left _ hmem))
          · exact ih _ _ _ h (Or.inr (lookupAssoc_append_left _ _ _ _ hE))
        | none =>
          rw [hfo] at h
          cases hfe : findEnumType enums t with
          | some e =>
            rw [hfe] at h
            rcases hE with hE | hE
            · rcases List.mem_cons.mp hE with rfl | hmem
              · have he : e = en := by
                  rw [hfe] at henum
                  injection henum
                subst he
                refine ih _ _ _ h (Or.inr ?_)
                rw [lookupAssoc_append_right _ _ _ (hasKey_false_lookup_none _ _
                  (by revert hk; cases hasKey visited E <;> simp))]
                rw [lookupAssoc_cons, if_pos rfl]
              · exact ih _ _ _ h (Or.inl hmem)
            · exact ih _ _ _ h (Or.inr (lookupAssoc_append_left _ _ _ _ hE))
          | none =>
            rw [hfe] at h
            simp at h

/-! ### Sufficiency of the getSchema fuel -/

theorem WF_lookup : ∀ (pre m : Visited), WFq m [] →
    ∀ (t : String) (tmp : List (String × String)) (post : Visited),
      m = pre ++ (t, .record tmp) :: post →
      ∀ p ∈ tmp, p.2 ∈ VALID_SCHEMA_TYPES ∨ hasKey post p.2 = true := by
  intro pre
  induction pre with
  | nil =>
    intro m hwf t tmp post hm p hp
    subst hm
    obtain ⟨htmp, _⟩ := hwf
    rcases htmp p hp with h | h | h
    · exact Or.inl h
    · exact Or.inr h
    · simp at h
  | cons hd pre' ih =>
    intro m hwf t tmp post hm p hp
    subst hm
    obtain ⟨k, val⟩ := hd
    cases val with
    | enumMembers vs =>
      exact ih (pre' ++ (t, .record tmp) :: post) hwf t tmp post rfl p hp
    | record tmp2 =>
      exact ih (pre' ++ (t, .record tmp) :: post) hwf.2 t tmp post rfl p hp

theorem getSchemaEntriesWith_suff (g : String → Option (Except OramaError ResolvedValue))
    (tmp : List (String × String)) (hg : ∀ p ∈ tmp, g p.2 ≠ none) :
    ∀ acc, getSchemaEntriesWith g tmp acc ≠ none := by
  induction tmp with
  | nil =>
    intro acc
    simp [getSchemaEntriesWith]
  | cons hd tl ih =>
    intro acc
    obtain ⟨f, ty⟩ := hd
    unfold getSchemaEntriesWith
    cases hgy : g ty with
    | none => exact absurd hgy (hg (f, ty) (List.mem_cons_self _ _))
    | some r =>
      cases r with
      | error e => simp
      | ok rv => exact ih (fun p hp => hg p (List.mem_cons_of_mem _ hp)) _

theorem getSchemaStr_suff (visited : Visited) (hwf : WFq visited []) (hnd : keysNodup visited) :
    ∀ (fuel : Nat) (v' : Visited), (∃ X, visited = X ++ v') → v'.length < fuel →
      ∀ t : String,
        (t ∈ VALID_SCHEMA_TYPES ∨ (hasKey visited t = true → hasKey v' t = true)) →
        getSchemaStr visited fuel t ≠ none := by
  intro fuel
  induction fuel with
  | zero =>
    intro v' _ hlen
    exact absurd hlen (Nat.not_lt_zero _)
  | succ f ihf =>
    intro v' hsuf hlen t hC
    obtain ⟨X, hX⟩ := hsuf
    rw [getSchemaStr_succ]
    by_cases ht : t ∈ VALID_SCHEMA_TYPES
    · simp [ht]
    · rw [if_neg ht]
      cases hl : lookupAssoc visited t with
      | none => simp
      | some val =>
        cases val with
        | enumMembers vs => simp
        | record tmp =>
          have hkv : hasKey visited t = true := by
            rw [hasKey_exists_iff]
            exact ⟨_, hl⟩
          have hk' : hasKey v' t = true := by
            rcases hC with hC | hC
            · exact absurd hC ht
            · exact hC hkv
          obtain ⟨val', hlv'⟩ := (hasKey_exists_iff v' t).mp hk'
          obtain ⟨pre', post', hdec⟩ := lookupAssoc_some_decomp v' t val' hlv'
          have hvis : visited = (X ++ pre') ++ (t, val') :: post' := by
            rw [hX, hdec, List.append_assoc]
          have hlval : lookupAssoc visited t = some val' :=
            lookupAssoc_of_decomp_nodup visited (X ++ pre') post' t val' hnd hvis
          have hval : val' = .record tmp := by
            rw [hl] at hlval
            injection hlval with h2
            exact h2.symm
          subst hval
          have href : ∀ p ∈ tmp, p.2 ∈ VALID_SCHEMA_TYPES ∨ hasKey post' p.2 = true :=
            WF_lookup (X ++ pre') visited hwf t tmp post' hvis
          have hlen' : post'.length < f := by
            have hv : v'.length = pre'.length + (post'.length + 1) := by
              rw [hdec]
              simp
            omega
          have hsuf' : ∃ Y, visited = Y ++ post' := by
            refine ⟨X ++ pre' ++ [(t, .record tmp)], ?_⟩
            rw [hvis]
            simp
          have hentries : getSchemaEntriesWith (getSchemaStr visited f) tmp [] ≠ none := by
            refine getSchemaEntriesWith_suff _ tmp ?_ []
            intro p hp
            refine ihf post' hsuf' hlen' p.2 ?_
            rcases href p hp with h1 | h1
            · exact Or.inl h1
            · exact Or.inr (fun _ => h1)
          change (match getSchemaEntriesWith (getSchemaStr visited f) tmp [] with
            | none => none
            | some (Except.error e) => some (Except.error e)
            | some (Except.ok entries) =>
                some (Except.ok (ResolvedValue.record entries))) ≠ none
          cases hgr : getSchemaEntriesWith (getSchemaStr visited f) tmp [] with
          | none => exact absurd hgr hentries
          | some r =>
            cases r with
            | error e => simp
            | ok entries => simp

theorem getSchemaStr_total (visited : Visited) (hwf : WFq visited []) (hnd : keysNodup visited)
    (t : String) : getSchemaStr visited (visited.length + 1) t ≠ none := by
  refine getSchemaStr_suff visited hwf hnd (visited.length + 1) visited ⟨[], rfl⟩
    (Nat.lt_succ_self _) t (Or.inr fun h => h)

theorem buildSchemaAux_total (visited : Visited) (hwf : WFq visited []) (hnd : keysNodup visited) :
    ∀ (s : Shape) (acc : Resolved), buildSchemaAux visited s acc ≠ none := by
  intro s
  induction s with
  | nil =>
    intro acc
    simp [buildSchemaAux]
  | cons hd tl ih =>
    intro acc
    obtain ⟨f, v⟩ := hd
    unfold buildSchemaAux
    cases v with
    | str t =>
      cases hg : getSchemaRaw visited (visited.length + 1) (.str t) with
      | none => exact absurd hg (getSchemaStr_total visited hwf hnd t)
      | some r =>
        cases r with
        | error e => simp
        | ok rv => exact ih _
    | obj => simp [getSchemaRaw]
    | other kind => simp [getSchemaRaw]

/-! ### Totality of the validation pass -/

theorem validateEntity_spec (objs : List ObjectTypeDef) (enums : List EnumTypeDef)
    (visited : Visited) (s : Shape) (hnd : keysNodup visited) (hwf : WFq visited []) :
    validateEntity objs enums visited s ≠ none ∧
      ∀ v2 r, validateEntity objs enums visited s = some (.ok (v2, r)) →
        keysNodup v2 ∧ WFq v2 [] := by
  have hpwtot : ∀ queue : List String,
      processWorklist objs enums (worklistFuel objs queue) visited queue ≠ none := by
    intro queue
    refine processWorklist_fuel_suff objs enums (queue ++ fieldTypeNames objs)
      (fun n hn => List.mem_append_right _ hn) (worklistFuel objs queue) visited queue
      (fun n hn => List.mem_append_left _ hn) ?_
    have h1 : ((queue ++ fieldTypeNames objs).filter fun n => !hasKey visited n).length ≤
        queue.length + (fieldTypeNames objs).length := by
      calc ((queue ++ fieldTypeNames objs).filter fun n => !hasKey visited n).length
          ≤ (queue ++ fieldTypeNames objs).length := List.length_filter_le _ _
        _ = queue.length + (fieldTypeNames objs).length := List.length_append _ _
    have h2 := Nat.mul_le_mul_right ((fieldTypeNames objs).length + 1) h1
    unfold worklistFuel
    generalize hA : ((queue ++ fieldTypeNames objs).filter fun n => !hasKey visited n).length *
      ((fieldTypeNames objs).length + 1) = a at h2 ⊢
    generalize hB : (queue.length + (fieldTypeNames objs).length) *
      ((fieldTypeNames objs).length + 1) = b at h2 ⊢
    omega
  constructor
  · unfold validateEntity
    split
    · simp
    · rename_i queue hg
      split
      · rename_i hpw2
        exact absurd hpw2 (hpwtot queue)
      · simp
      · rename_i v2 hpw2
        have hinv := processWorklist_preserves objs enums _ _ _ _ hpw2 hnd
          (WFq_mono visited [] queue (by simp) hwf)
        split
        · rename_i hb2
          exact absurd hb2 (buildSchemaAux_total v2 hinv.2 hinv.1 s [])
        · simp
        · simp
  · intro v2 r h
    unfold validateEntity at h
    split at h
    · cases h
    · rename_i queue hg
      split at h
      · cases h
      · simp at h
      · rename_i v3 hpw2
        have hinv := processWorklist_preserves objs enums _ _ _ _ hpw2 hnd
          (WFq_mono visited [] queue (by simp) hwf)
        split at h
        · cases h
        · simp at h
        · rename_i r3 hb2
          simp only [Option.some.injEq, Except.ok.injEq, Prod.mk.injEq] at h
          obtain ⟨h1, _⟩ := h
          rw [← h1]
          exact hinv

theorem validateAllAux_ne_none (objs : List ObjectTypeDef) (enums : List EnumTypeDef) :
    ∀ (shapes : List Shape) (visited : Visited),
      keysNodup visited → WFq visited [] →
      validateAllAux objs enums visited shapes ≠ none := by
  intro shapes
  induction shapes with
  | nil =>
    intro visited _ _
    simp [validateAllAux]
  | cons s rest ih =>
    intro visited hnd hwf
    have hspec := validateEntity_spec objs enums visited s hnd hwf
    unfold validateAllAux
    split
    · rename_i hve
      exact absurd hve hspec.1
    · simp
    · rename_i v2 r hve
      have hinv := hspec.2 v2 r hve
      split
      · rename_i hva
        exact absurd hva (ih v2 hinv.1 hinv.2)
      · simp
      · simp

/-! ### Lemmas on step 1 (`getNonValidSchemaType`) -/

theorem rawNames_mem (vs : List RawValue) (ns : List String) (E : String)
    (h : rawNames vs = .ok ns) (hm : .str E ∈ vs) : E ∈ ns := by
  induction vs generalizing ns with
  | nil => simp at hm
  | cons v rest ih =>
    unfold rawNames at h
    cases hv : rawToName v with
    | error e =>
      rw [hv] at h
      cases h
    | ok n =>
      rw [hv] at h
      cases hr : rawNames rest with
      | error e =>
        rw [hr] at h
        cases h
      | ok ns' =>
        rw [hr] at h
        injection h with h
        subst h
        rcases List.mem_cons.mp hm with rfl | hmem
        · have hne : n = E := by
            unfold rawToName at hv
            injection hv with h2
            exact h2.symm
          simp [hne]
        · exact List.mem_cons_of_mem _ (ih ns' hr hmem)

theorem rawNames_error_src (vs : List RawValue) (e : OramaError)
    (h : rawNames vs = .error e) : ∃ k, e = .unsupportedSchemaType k ∧ .other k ∈ vs := by
  induction vs generalizing e with
  | nil => cases h
  | cons v rest ih =>
    unfold rawNames at h
    cases hv : rawToName v with
    | error e2 =>
      rw [hv] at h
      injection h with h
      subst h
      cases v with
      | str s => cases hv
      | obj => cases hv
      | other k =>
        refine ⟨k, ?_, by simp⟩
        unfold rawToName at hv
        injection hv with h2
        exact h2.symm
    | ok n =>
      rw [hv] at h
      cases hr : rawNames rest with
      | error e2 =>
        rw [hr] at h
        injection h with h
        subst h
        obtain ⟨k, hk, hkm⟩ := ih e2 hr
        exact ⟨k, hk, List.mem_cons_of_mem _ hkm⟩
      | ok ns' =>
        rw [hr] at h
        cases h

theorem rawNames_error_of_other (vs : List RawValue) (k : String)
    (hm : .other k ∈ vs) : ∃ e, rawNames vs = .error e := by
  induction vs with
  | nil => simp at hm
  | cons v rest ih =>
    unfold rawNames
    cases hv : rawToName v with
    | error e => exact ⟨e, rfl⟩
    | ok n =>
      rcases List.mem_cons.mp hm with rfl | hmem
      · cases hv
      · obtain ⟨e, he⟩ := ih hmem
        rw [he]
        exact ⟨e, rfl⟩

theorem getNonValid_error_iff (s : Shape) :
    (∃ e, getNonValidSchemaType s = .error e) ↔ ∃ f k, (f, RawValue.other k) ∈ s := by
  constructor
  · rintro ⟨e, he⟩
    unfold getNonValidSchemaType at he
    cases hr : rawNames (s.map Prod.snd) with
    | error e2 =>
      obtain ⟨k, _, hkm⟩ := rawNames_error_src _ _ hr
      obtain ⟨p, hp, hpe⟩ := List.mem_map.mp hkm
      exact ⟨p.1, k, by rwa [show p = (p.1, RawValue.other k) from by rw [← hpe]] at hp⟩
    | ok ns =>
      rw [hr] at he
      cases he
  · rintro ⟨f, k, hm⟩
    have hmm : RawValue.other k ∈ s.map Prod.snd :=
      List.mem_map.mpr ⟨(f, .other k), hm, rfl⟩
    obtain ⟨e, he⟩ := rawNames_error_of_other _ k hmm
    unfold getNonValidSchemaType
    rw [he]
    exact ⟨e, rfl⟩

theorem getNonValid_error_names (s : Shape) (e : OramaError)
    (h : getNonValidSchemaType s = .error e) :
    ∃ k, e = .unsupportedSchemaType k ∧ ∃ f, (f, RawValue.other k) ∈ s := by
  unfold getNonValidSchemaType at h
  cases hr : rawNames (s.map Prod.snd) with
  | error e2 =>
    rw [hr] at h
    injection h with h
    subst h
    obtain ⟨k, hk, hkm⟩ := rawNames_error_src _ _ hr
    obtain ⟨p, hp, hpe⟩ := List.mem_map.mp hkm
    exact ⟨k, hk, p.1, by rwa [show p = (p.1, RawValue.other k) from by rw [← hpe]] at hp⟩
  | ok ns =>
    rw [hr] at h
    cases h

theorem getNonValid_mem (s : Shape) (q : List String) (f E : String)
    (h : getNonValidSchemaType s = .ok q) (hm : (f, RawValue.str E) ∈ s)
    (hE : E ∉ VALID_SCHEMA_TYPES) : E ∈ q := by
  unfold getNonValidSchemaType at h
  cases hr : rawNames (s.map Prod.snd) with
  | error e =>
    rw [hr] at h
    cases h
  | ok ns =>
    rw [hr] at h
    injection h with h
    subst h
    refine List.mem_filter.mpr ⟨?_, by simpa using hE⟩
    exact rawNames_mem _ ns E hr (List.mem_map.mpr ⟨(f, .str E), hm, rfl⟩)

/-! ### Lemmas on the second pass (`buildSchemaAux`) -/

theorem recordInsert_keys {α : Type} (m : List (String × α)) (k : String) (v : α) (a : String)
    (h : a ∈ (recordInsert m k v).map Prod.fst) : a ∈ m.map Prod.fst ∨ a = k := by
  obtain ⟨p, hp, hpa⟩ := List.mem_map.mp h
  rcases recordInsert_mem m k v p hp with h1 | h1
  · exact Or.inl (List.mem_map.mpr ⟨p, h1, hpa⟩)
  · subst h1
    exact Or.inr hpa.symm

theorem buildSchemaAux_lookup_skip (visited : Visited) :
    ∀ (entries : Shape) (acc : Resolved) (r : Resolved) (f : String),
      buildSchemaAux visited entries acc = some (.ok r) →
      f ∉ entries.map Prod.fst →
      lookupAssoc r f = lookupAssoc acc f := by
  intro entries
  induction entries with
  | nil =>
    intro acc r f h _
    unfold buildSchemaAux at h
    simp only [Option.some.injEq, Except.ok.injEq] at h
    rw [h]
  | cons hd tl ih =>
    intro acc r f h hf
    obtain ⟨f2, v2⟩ := hd
    unfold buildSchemaAux at h
    cases hg : getSchemaRaw visited (visited.length + 1) v2 with
    | none =>
      rw [hg] at h
      cases h
    | some res =>
      cases res with
      | error e =>
        rw [hg] at h
        cases h
      | ok rv =>
        rw [hg] at h
        have hf2 : f ∉ tl.map Prod.fst := fun hc => hf (List.mem_cons_of_mem _ hc)
        have hne : f ≠ f2 := fun hc => hf (by simp [hc])
        rw [ih _ r f h hf2]
        exact recordInsert_lookup_ne acc f2 f rv hne

theorem buildSchemaAux_lookup (visited : Visited) :
    ∀ (entries : Shape) (acc : Resolved) (r : Resolved) (f : String) (v : RawValue),
      (entries.map Prod.fst).Nodup →
      (f, v) ∈ entries →
      f ∉ acc.map Prod.fst →
      buildSchemaAux visited entries acc = some (.ok r) →
      ∃ rv, getSchemaRaw visited (visited.length + 1) v = some (.ok rv) ∧
        lookupAssoc r f = some rv := by
  intro entries
  induction entries with
  | nil =>
    intro acc r f v _ hm
    simp at hm
  | cons hd tl ih =>
    intro acc r f v hnd hm hacc h
    obtain ⟨f2, v2⟩ := hd
    unfold buildSchemaAux at h
    cases hg : getSchemaRaw visited (visited.length + 1) v2 with
    | none =>
      rw [hg] at h
      cases h
    | some res =>
      cases res with
      | error e =>
        rw [hg] at h
        cases h
      | ok rv =>
        rw [hg] at h
        rcases List.mem_cons.mp hm with heq | hmem
        · have hff : f2 = f ∧ v2 = v := by
            have h1 := congrArg Prod.fst heq
            have h2 := congrArg Prod.snd heq
            simp at h1 h2
            exact ⟨h1.symm, h2.symm⟩
          obtain ⟨rfl, rfl⟩ := hff
          refine ⟨rv, hg, ?_⟩
          have hf2 : f2 ∉ tl.map Prod.fst := by
            simp only [List.map_cons, List.nodup_cons] at hnd
            exact hnd.1
          rw [buildSchemaAux_lookup_skip visited tl _ r f2 h hf2]
          exact recordInsert_lookup_self acc f2 rv
        · have hne : f ≠ f2 := by
            simp only [List.map_cons, List.nodup_cons] at hnd
            intro hc
            subst hc
            exact hnd.1 (List.mem_map.mpr ⟨(f, v), hmem, rfl⟩)
          refine ih _ r f v ?_ hmem ?_ h
          · simp only [List.map_cons, List.nodup_cons] at hnd
            exact hnd.2
          · intro hc
            rcases recordInsert_keys acc f2 rv f hc with h1 | h1
            · exact hacc h1
            · exact hne h1

theorem buildSchemaAux_obj_ne_ok (visited : Visited) :
    ∀ (entries : Shape) (f : String), (f, RawValue.obj) ∈ entries →
      ∀ (acc : Resolved) (r : Resolved),
        buildSchemaAux visited entries acc ≠ some (.ok r) := by
  intro entries
  induction entries with
  | nil =>
    intro f hm
    simp at hm
  | cons hd tl ih =>
    intro f hm acc r h
    obtain ⟨f2, v2⟩ := hd
    unfold buildSchemaAux at h
    rcases List.mem_cons.mp hm with heq | hmem
    · have hv2 : v2 = RawValue.obj := congrArg Prod.snd heq.symm
      subst hv2
      simp [getSchemaRaw] at h
    · cases hg : getSchemaRaw visited (visited.length + 1) v2 with
      | none =>
        rw [hg] at h
        cases h
      | some res =>
        cases res with
        | error e =>
          rw [hg] at h
          cases h
        | ok rv =>
          rw [hg] at h
          exact ih f hmem _ r h

/-! ### Primitive shapes -/

theorem getSchemaStr_prim (visited : Visited) (fuel : Nat) (p : String)
    (h : p ∈ VALID_SCHEMA_TYPES) :
    getSchemaStr visited (fuel + 1) p = some (.ok (.prim p)) := by
  rw [getSchemaStr_succ, if_pos h]

theorem rawNames_str (l : List String) : rawNames (l.map RawValue.str) = .ok l := by
  induction l with
  | nil => rfl
  | cons hd tl ih =>
    unfold rawNames
    rw [List.map_cons]
    simp only [rawToName, ih]

theorem getNonValid_prim (s' : List (String × String))
    (hval : ∀ p ∈ s', p.2 ∈ VALID_SCHEMA_TYPES) :
    getNonValidSchemaType (s'.map fun p => (p.1, RawValue.str p.2)) = .ok [] := by
  unfold getNonValidSchemaType
  have hmap : (s'.map fun p => (p.1, RawValue.str p.2)).map Prod.snd =
      (s'.map Prod.snd).map RawValue.str := by
    simp [List.map_map]
  rw [hmap]
  simp only [rawNames_str]
  congr 1
  rw [List.filter_eq_nil_iff]
  intro a ha
  obtain ⟨p, hp, hpa⟩ := List.mem_map.mp ha
  simp only [Bool.not_eq_true, decide_eq_false_iff_not, Decidable.not_not]
  rw [← hpa]
  exact hval p hp

theorem buildSchemaAux_prim (visited : Visited) (s' : List (String × String)) :
    ∀ acc : Resolved,
      (∀ p ∈ s', p.2 ∈ VALID_SCHEMA_TYPES) →
      (∀ p ∈ s', p.1 ∉ acc.map Prod.fst) →
      (s'.map Prod.fst).Nodup →
      buildSchemaAux visited (s'.map fun p => (p.1, RawValue.str p.2)) acc =
        some (.ok (acc ++ s'.map fun p => (p.1, ResolvedValue.prim p.2))) := by
  induction s' with
  | nil =>
    intro acc _ _ _
    simp [buildSchemaAux]
  | cons hd tl ih =>
    intro acc hval hacc hnd
    obtain ⟨f, pv⟩ := hd
    rw [List.map_cons]
    unfold buildSchemaAux
    have hg : getSchemaRaw visited (visited.length + 1) (RawValue.str pv) =
        some (.ok (.prim pv)) :=
      getSchemaStr_prim visited visited.length pv (hval (f, pv) (List.mem_cons_self _ _))
    simp only [hg]
    have hins : recordInsert acc f (ResolvedValue.prim pv) = acc ++ [(f, .prim pv)] :=
      recordInsert_of_not_mem acc f _ (hacc (f, pv) (List.mem_cons_self _ _))
    rw [hins]
    have hrec := ih (acc ++ [(f, .prim pv)])
      (fun p hp => hval p (List.mem_cons_of_mem _ hp))
      ?_ ?_
    · rw [hrec]
      simp
    · intro p hp hc
      simp only [List.map_append, List.mem_append] at hc
      rcases hc with hc | hc
      · exact hacc p (List.mem_cons_of_mem _ hp) hc
      · simp only [List.map_cons, List.map_nil, List.mem_singleton] at hc
        simp only [List.map_cons, List.nodup_cons] at hnd
        exact hnd.1 (hc ▸ List.mem_map.mpr ⟨p, hp, rfl⟩)
    · simp only [List.map_cons, List.nodup_cons] at hnd
      exact hnd.2

/-- C5: for every field-shape mapping whose values are all primitive markers
from {string, number, boolean}, resolution succeeds and the resolved schema
is exactly the input mapping, unchanged — resolution is the identity on
all-primitive shapes, for any host document. -/
theorem c5_primitive_identity (d : Document) (s' : List (String × String))
    (hnd : (s'.map Prod.fst).Nodup) (hval : ∀ p ∈ s', p.2 ∈ VALID_SCHEMA_TYPES) :
    validateAll d [s'.map fun p => (p.1, RawValue.str p.2)] =
      some (.ok [s'.map fun p => (p.1, ResolvedValue.prim p.2)]) := by
  have h1 := getNonValid_prim s' hval
  have h2 : processWorklist (customObjectTypes d) (customEnumTypes d)
      (worklistFuel (customObjectTypes d) []) [] [] = some (.ok []) := by
    unfold worklistFuel
    exact processWorklist_nil _ _ _ _
  have h3 := buildSchemaAux_prim [] s' [] hval (by simp) hnd
  simp only [List.nil_append] at h3
  simp only [validateAll, validateAllAux, validateEntity, h1, h2, h3]

/-- Witness for C5 at a concrete all-primitive shape. -/
theorem c5_primitive_identity_witness :
    validateAll ⟨[]⟩ [[("id", RawValue.str "string"), ("n", RawValue.str "number")]] =
      some (.ok [[("id", ResolvedValue.prim "string"), ("n", ResolvedValue.prim "number")]]) := by
  have h := c5_primitive_identity ⟨[]⟩ [("id", "string"), ("n", "number")]
    (by decide) (by decide)
  simpa using h

/-- C10: the validation pass terminates for every finite schema document and
every list of field-shape mappings: run with the canonical fuel (computed
from the sizes of the queue and the document's field type names for the
worklist, and from the size of the built index for `getSchema`), it never
exhausts the fuel — each worklist iteration either raises an error or
inserts a fresh name drawn from a finite universe, and the index built by a
successful worklist pass contains no reference cycles, so the recursive
materialization is depth-bounded. -/
theorem c10_validateAll_total (d : Document) (shapes : List Shape) :
    validateAll d shapes ≠ none := by
  unfold validateAll
  refine validateAllAux_ne_none _ _ shapes [] ?_ trivial
  simp [keysNodup]

/-- C3: on the concrete document of scenario A, resolution succeeds and the
attached resolved schema is exactly the specified one. -/
theorem c3_scenarioA :
    validateAll scenarioADoc [scenarioAShape] = some (.ok [scenarioAResolved]) := rfl

/-- C9: implicit claim — the cycle guard fires on any repeated worklist
occurrence of a type name, not only on genuine re-entry: the shape
`{a: T1, b: T1}` over the acyclic document `T1 { x: String }` raises the
circular-reference error naming `T1`, although the same reference resolved
alone succeeds (second conjunct), so no reference cycle exists. -/
theorem c9_false_positive_cycle :
    validateAll c9Doc [[("a", RawValue.str "T1"), ("b", RawValue.str "T1")]] =
      some (.error (.circularReference "T1")) ∧
    validateAll c9Doc [[("a", RawValue.str "T1")]] =
      some (.ok [[("a", ResolvedValue.record [("x", ResolvedValue.prim "string")])]]) :=
  ⟨rfl, rfl⟩

/-- C2 counterexample: a mapping with an object-valued entry, against the
empty document: resolution fails (with `object not found in schema`), so it
is false that resolution does not fail on account of the object-valued
form. -/
theorem c2_counterexample :
    validateAll ⟨[]⟩ [[("f", RawValue.obj)]] =
      some (.error (.notFoundInSchema "object")) := rfl

theorem validateEntity_obj_ne_ok (objs : List ObjectTypeDef) (enums : List EnumTypeDef)
    (visited : Visited) (s : Shape) (f : String) (hf : (f, RawValue.obj) ∈ s)
    (v2 : Visited) (r : Resolved) :
    validateEntity objs enums visited s ≠ some (.ok (v2, r)) := by
  unfold validateEntity
  split
  · simp
  · split
    · simp
    · simp
    · rename_i v3 hpw
      split
      · simp
      · simp
      · rename_i r2 hb
        exact absurd hb (buildSchemaAux_obj_ne_ok v3 s f hf [] r2)

/-- C2 (amended): step 1 (`getNonValidSchemaType`) fails fast with
`UnsupportedSchemaTypeError` if and only if some raw value is neither a
string nor an object-shaped literal, and the error names the `typeof` kind of
such an illegal value; an object-valued entry does pass step 1 — but it is
mapped to the literal worklist name `"object"`, so resolution of any mapping
containing an object-valued entry never succeeds (it fails in worklist
processing or in the second pass). -/
theorem c2_unsupported_value_handling :
    (∀ s : Shape,
      (∃ e, getNonValidSchemaType s = .error e) ↔ ∃ f k, (f, RawValue.other k) ∈ s) ∧
    (∀ (s : Shape) (e : OramaError), getNonValidSchemaType s = .error e →
      ∃ k, e = .unsupportedSchemaType k ∧ ∃ f, (f, RawValue.other k) ∈ s) ∧
    (∀ (d : Document) (s : Shape) (r : List Resolved), (∃ f, (f, RawValue.obj) ∈ s) →
      validateAll d [s] ≠ some (.ok r)) := by
  refine ⟨getNonValid_error_iff, getNonValid_error_names, ?_⟩
  rintro d s r ⟨f, hf⟩ h
  unfold validateAll validateAllAux at h
  cases hve : validateEntity (customObjectTypes d) (customEnumTypes d) [] s with
  | none =>
    rw [hve] at h
    cases h
  | some res =>
    cases res with
    | error e =>
      rw [hve] at h
      simp at h
    | ok pr =>
      obtain ⟨v2, r2⟩ := pr
      exact validateEntity_obj_ne_ok _ _ [] s f hf v2 r2 hve

/-- Witness for the hypothesis-bearing part of C2: instantiating the amended
theorem at the concrete failing mapping. -/
theorem c2_unsupported_value_handling_witness :
    validateAll ⟨[]⟩ [[("f", RawValue.obj)]] ≠ some (.ok [[]]) :=
  c2_unsupported_value_handling.2.2 ⟨[]⟩ [("f", RawValue.obj)] [[]] ⟨"f", by simp⟩

/-- C1 counterexample: in a validation pass over two entities whose shapes
both reference the object type `TE`, the second entity does not resolve to
what resolving it alone produces (first conjunct): the shared `visitedTypes`
makes the pass fail with `CircularReferenceError TE` (second conjunct). -/
theorem c1_counterexample :
    validateAll c1Doc [[("g", RawValue.str "TE")]] =
      some (.ok [[("g", ResolvedValue.record [("x", ResolvedValue.prim "string")])]]) ∧
    validateAll c1Doc [[("f", RawValue.str "TE")], [("g", RawValue.str "TE")]] =
      some (.error (.circularReference "TE")) := ⟨rfl, rfl⟩

/-- C1 (amended): the `visitedTypes` index is created once per validation
pass, before the entity loop, and threaded through all entities — resolution
state IS shared.  Consequently, for any object type `T` (with a scalar-typed
field) and any two entities whose shapes both reference `T`, the pass
resolves the first entity and then fails on the second with
`CircularReferenceError` naming `T`, although the second entity alone would
resolve successfully. -/
theorem c1_shared_index (T f g x : String) (hT : T ∉ VALID_SCHEMA_TYPES) :
    validateAll ⟨[.object ⟨T, [⟨x, .named "String"⟩]⟩]⟩
      [[(f, RawValue.str T)], [(g, RawValue.str T)]] =
      some (.error (.circularReference T)) := by
  have hnv : ∀ y : String, getNonValidSchemaType [(y, RawValue.str T)] = .ok [T] := by
    intro y
    unfold getNonValidSchemaType
    rw [show rawNames ([(y, RawValue.str T)].map Prod.snd) = .ok [T] from rfl]
    simp [hT]
  have hfind : findObjectType [⟨T, [⟨x, .named "String"⟩]⟩] T =
      some ⟨T, [⟨x, .named "String"⟩]⟩ := by
    unfold findObjectType
    rw [if_pos rfl]
  have hwl1 : processWorklist [⟨T, [⟨x, .named "String"⟩]⟩] []
      (worklistFuel [⟨T, [⟨x, .named "String"⟩]⟩] [T]) [] [T] =
      some (.ok [(T, VisitedValue.record [(x, "string")])]) := by
    rw [show worklistFuel [(⟨T, [⟨x, .named "String"⟩]⟩ : ObjectTypeDef)] [T] = 5 + 1 from rfl]
    rw [processWorklist_cons]
    rw [if_neg (by simp [hasKey])]
    rw [hfind]
    show processWorklist [⟨T, [⟨x, .named "String"⟩]⟩] [] 5
      [(T, VisitedValue.record [(x, "string")])] [] = _
    rw [show (5 : Nat) = 4 + 1 from rfl]
    exact processWorklist_nil _ _ _ _
  have hgs : getSchemaStr [(T, VisitedValue.record [(x, "string")])] (1 + 1) T =
      some (.ok (.record [(x, ResolvedValue.prim "string")])) := by
    rw [getSchemaStr_succ, if_neg hT, lookupAssoc_cons, if_pos rfl]
    rfl
  have hb1 : buildSchemaAux [(T, VisitedValue.record [(x, "string")])]
      [(f, RawValue.str T)] [] =
      some (.ok [(f, ResolvedValue.record [(x, ResolvedValue.prim "string")])]) := by
    unfold buildSchemaAux
    rw [show getSchemaRaw [(T, VisitedValue.record [(x, "string")])]
      ([(T, VisitedValue.record [(x, "string")])].length + 1) (RawValue.str T) =
      getSchemaStr [(T, VisitedValue.record [(x, "string")])] (1 + 1) T from rfl]
    rw [hgs]
    rfl
  have hve1 : validateEntity [⟨T, [⟨x, .named "String"⟩]⟩] [] [] [(f, RawValue.str T)] =
      some (.ok ([(T, VisitedValue.record [(x, "string")])],
        [(f, ResolvedValue.record [(x, ResolvedValue.prim "string")])])) := by
    unfold validateEntity
    simp only [hnv f, hwl1, hb1]
  have hkT : hasKey [(T, VisitedValue.record [(x, "string")])] T = true := by
    unfold hasKey
    rw [lookupAssoc_cons, if_pos rfl]
    rfl
  have hve2 : validateEntity [⟨T, [⟨x, .named "String"⟩]⟩] []
      [(T, VisitedValue.record [(x, "string")])] [(g, RawValue.str T)] =
      some (.error (.circularReference T)) := by
    unfold validateEntity
    simp only [hnv g]
    rw [show worklistFuel [(⟨T, [⟨x, .named "String"⟩]⟩ : ObjectTypeDef)] [T] = 5 + 1 from rfl]
    rw [processWorklist_cons]
    simp [hkT]
  simp only [validateAll,
    show customObjectTypes ⟨[.object ⟨T, [⟨x, .named "String"⟩]⟩]⟩ =
      [⟨T, [⟨x, .named "String"⟩]⟩] from rfl,
    show customEnumTypes ⟨[.object ⟨T, [⟨x, .named "String"⟩]⟩]⟩ = [] from rfl,
    validateAllAux, hve1, hve2]

/-- Witness for C1 (amended) at concrete names. -/
theorem c1_shared_index_witness :
    validateAll ⟨[.object ⟨"S3Object", [⟨"bucket", .named "String"⟩]⟩]⟩
      [[("picture", RawValue.str "S3Object")], [("avatar", RawValue.str "S3Object")]] =
      some (.error (.circularReference "S3Object")) :=
  c1_shared_index "S3Object" "picture" "avatar" "bucket" (by decide)

/-- C4 counterexample: the shape `{x: Zzz, y: A}` forms the reference cycle
`A → B → A` against `c4Doc` through its `y` entry, yet resolution fails with
`UnknownSchemaTypeError` naming `Zzz` — the unknown name earlier in FIFO
order preempts the circular-reference error, so the claim as stated (every
cycle-forming mapping fails with `CircularReferenceError`) is false. -/
theorem c4_counterexample :
    validateAll c4Doc [[("x", RawValue.str "Zzz"), ("y", RawValue.str "A")]] =
      some (.error (.notFoundInSchema "Zzz")) := rfl

/-- C4 (amended): a field-shape mapping whose pending worklist is exactly
`[A]`, against a document whose object `A` pushes exactly `[B]` and whose
object `B` pushes exactly `[A]` (the cycle `A → B → A`, all other fields
scalar-mapped), fails with `CircularReferenceError` naming `A` — the first
type re-encountered during worklist processing.  In general an unknown type
or unsupported value reached earlier in FIFO order preempts this error with
its own. -/
theorem c4_cycle_detected (d : Document) (s : Shape) (A B : String)
    (Ao Bo : ObjectTypeDef) (hAB : A ≠ B)
    (hq : getNonValidSchemaType s = .ok [A])
    (hfA : findObjectType (customObjectTypes d) A = some Ao)
    (hfB : findObjectType (customObjectTypes d) B = some Bo)
    (hpA : (processObjectFields Ao.fields).1 = [B])
    (hpB : (processObjectFields Bo.fields).1 = [A]) :
    validateAll d [s] = some (.error (.circularReference A)) := by
  obtain ⟨m, hm⟩ : ∃ m, worklistFuel (customObjectTypes d) [A] = m + 3 := by
    unfold worklistFuel
    have h1 : 0 < ([A].length + (fieldTypeNames (customObjectTypes d)).length) *
        ((fieldTypeNames (customObjectTypes d)).length + 1) :=
      Nat.mul_pos (by simp) (Nat.succ_pos _)
    generalize ([A].length + (fieldTypeNames (customObjectTypes d)).length) *
        ((fieldTypeNames (customObjectTypes d)).length + 1) = P at h1 ⊢
    simp only [List.length_cons, List.length_nil]
    exact ⟨P - 1, by omega⟩
  have hwl : processWorklist (customObjectTypes d) (customEnumTypes d) (m + 3) [] [A] =
      some (.error (.circularReference A)) := by
    rw [show m + 3 = (m + 2) + 1 from rfl, processWorklist_cons]
    rw [if_neg (by simp [hasKey])]
    rw [hfA]
    show processWorklist (customObjectTypes d) (customEnumTypes d) (m + 2)
      [(A, VisitedValue.record (processObjectFields Ao.fields).2)]
      ((processObjectFields Ao.fields).1) = _
    rw [hpA]
    rw [show m + 2 = (m + 1) + 1 from rfl, processWorklist_cons]
    have hkB : ¬(hasKey [(A, VisitedValue.record (processObjectFields Ao.fields).2)] B = true) := by
      unfold hasKey
      rw [lookupAssoc_cons, if_neg hAB]
      simp
    rw [if_neg hkB, hfB]
    show processWorklist (customObjectTypes d) (customEnumTypes d) (m + 1)
      ((A, VisitedValue.record (processObjectFields Ao.fields).2) ::
        [(B, VisitedValue.record (processObjectFields Bo.fields).2)])
      ((processObjectFields Bo.fields).1) = _
    rw [hpB]
    rw [processWorklist_cons]
    have hkA : hasKey ((A, VisitedValue.record (processObjectFields Ao.fields).2) ::
        [(B, VisitedValue.record (processObjectFields Bo.fields).2)]) A = true := by
      unfold hasKey
      rw [lookupAssoc_cons, if_pos rfl]
      rfl
    rw [if_pos hkA]
  simp only [validateAll, validateAllAux, validateEntity, hq, hm, hwl]

/-- Witness for C4 (amended) at the concrete cyclic document. -/
theorem c4_cycle_detected_witness :
    validateAll c4Doc [[("y", RawValue.str "A")]] =
      some (.error (.circularReference "A")) :=
  c4_cycle_detected c4Doc [("y", RawValue.str "A")] "A" "B"
    ⟨"A", [⟨"b", .named "B"⟩]⟩ ⟨"B", [⟨"a", .named "A"⟩]⟩
    (by decide) rfl rfl rfl rfl rfl

/-- C6: an enum type resolves to the primitive marker `"string"`, regardless
of its member names.  First conjunct: at any position materialized by
`getSchema` (so also transitively through stored object field maps), a name
bound to enum members in `visitedTypes` yields `"string"`.  Second conjunct:
end to end, if a validation pass succeeds and the shape maps field `f` to a
name `E` that is an enum (and not an object type) of the document, the
resolved schema at `f` is `"string"`. -/
theorem c6_enum_resolves_to_string :
    (∀ (visited : Visited) (fuel : Nat) (E : String) (mem : List String),
      lookupAssoc visited E = some (.enumMembers mem) → E ∉ VALID_SCHEMA_TYPES →
      getSchemaStr visited (fuel + 1) E = some (.ok (.prim "string"))) ∧
    (∀ (d : Document) (s : Shape) (f E : String) (en : EnumTypeDef) (r : Resolved),
      (s.map Prod.fst).Nodup → (f, RawValue.str E) ∈ s → E ∉ VALID_SCHEMA_TYPES →
      findObjectType (customObjectTypes d) E = none →
      findEnumType (customEnumTypes d) E = some en →
      validateAll d [s] = some (.ok [r]) →
      lookupAssoc r f = some (.prim "string")) := by
  constructor
  · intro visited fuel E mem hlk hE
    rw [getSchemaStr_succ, if_neg hE, hlk]
  · intro d s f E en r hnd hm hE hno hen h
    unfold validateAll validateAllAux at h
    split at h
    · cases h
    · simp at h
    · rename_i v2 r2 hve
      simp only [validateAllAux] at h
      simp only [Option.some.injEq, Except.ok.injEq, List.cons.injEq, and_true] at h
      subst h
      unfold validateEntity at hve
      split at hve
      · cases hve
      · rename_i queue hg
        split at hve
        · cases hve
        · simp at hve
        · rename_i v3 hpw
          split at hve
          · cases hve
          · simp at hve
          · rename_i r3 hb
            simp only [Option.some.injEq, Except.ok.injEq, Prod.mk.injEq] at hve
            obtain ⟨hv32, hr32⟩ := hve
            have hEq : E ∈ queue := getNonValid_mem s queue f E hg hm hE
            have hlkE : lookupAssoc v3 E = some (.enumMembers en.values) :=
              processWorklist_enum (customObjectTypes d) (customEnumTypes d) E en
                hno hen _ [] queue v3 hpw (Or.inl hEq)
            obtain ⟨rv, hgsr, hlkf⟩ :=
              buildSchemaAux_lookup v3 s [] r3 f (RawValue.str E) hnd hm (by simp) hb
            have hprim : getSchemaRaw v3 (v3.length + 1) (RawValue.str E) =
                some (.ok (.prim "string")) := by
              show getSchemaStr v3 (v3.length + 1) E = _
              rw [getSchemaStr_succ, if_neg hE, hlkE]
            have hrv : rv = .prim "string" := by
              rw [hprim] at hgsr
              simp at hgsr
              exact hgsr.symm
            rw [← hr32, hlkf, hrv]

/-- Witness for C6 at a concrete enum. -/
theorem c6_enum_resolves_to_string_witness :
    getSchemaStr [("E1", VisitedValue.enumMembers ["a", "b"])] (0 + 1) "E1" =
      some (.ok (.prim "string")) ∧
    lookupAssoc [("f", ResolvedValue.prim "string")] "f" = some (.prim "string") := by
  constructor
  · exact c6_enum_resolves_to_string.1 [("E1", .enumMembers ["a", "b"])] 0 "E1" ["a", "b"]
      rfl (by decide)
  · exact c6_enum_resolves_to_string.2 ⟨[.enum ⟨"E1", ["a", "b"]⟩]⟩
      [("f", RawValue.str "E1")] "f" "E1" ⟨"E1", ["a", "b"]⟩
      [("f", ResolvedValue.prim "string")] (by decide) (by decide) (by decide) rfl rfl rfl

/-- C7: the placement check on an annotated type raises a
`DirectiveUsageError` if and only if the type's directive list does not
contain `model`, or the searchable directive is not immediately after the
model directive (first-occurrence index difference exactly 1); on success it
returns unit and nothing else.  A missing directive list counts as not
containing `model`. -/
theorem c7_placement_check :
    (∀ values : List String,
      (∃ e, validateModelDirective (some values) = .error e) ↔
        ("model" ∉ values ∨
          jsIndexOf values directiveName - jsIndexOf values "model" ≠ 1)) ∧
    validateModelDirective none = .error .missingModelDirective ∧
    (∀ values : List String, "model" ∈ values →
      jsIndexOf values directiveName - jsIndexOf values "model" = 1 →
      validateModelDirective (some values) = .ok ()) := by
  refine ⟨?_, rfl, ?_⟩
  · intro values
    simp only [validateModelDirective]
    by_cases hmem : "model" ∈ values
    · rw [if_pos hmem]
      by_cases hidx : jsIndexOf values "model" + 1 ≠ jsIndexOf values directiveName
      · rw [if_pos hidx]
        constructor
        · intro _
          right
          omega
        · intro _
          exact ⟨.wrongDirectivePosition, rfl⟩
      · rw [if_neg hidx]
        constructor
        · rintro ⟨e, he⟩
          cases he
        · intro h
          rcases h with h | h
          · exact absurd hmem h
          · exact absurd (by omega : jsIndexOf values "model" + 1 =
              jsIndexOf values directiveName) (by omega)
    · rw [if_neg hmem]
      exact ⟨fun _ => Or.inl hmem, fun _ => ⟨.missingModelDirective, rfl⟩⟩
  · intro values hmem hidx
    simp only [validateModelDirective]
    rw [if_pos hmem, if_neg (by omega)]

/-- Witness for C7 at a concrete directive list. -/
theorem c7_placement_check_witness :
    validateModelDirective (some ["model", "oramaSearchable"]) = .ok () :=
  c7_placement_check.2.2 ["model", "oramaSearchable"] (by decide) (by decide)

/-- C8: for every annotated entity, the schema-augmentation phase registers
exactly one root query field (one field per collected entity, first
conjunct's length equation), whose name is the pluralized, prefixed
transform of the entity's name computed at visit time (`graphqlName`,
`plurality`, `toUpper` kept abstract), with exactly the two arguments
`term : String` and `limit : Int`, and return type `[E]!`. -/
theorem c8_search_query_field :
    (∀ (pl up gq : String → String) (definition : ObjectTypeDef)
       (directives : Option (List String)) (args : Shape) (sd : SearchableDef),
       objectVisit pl up gq definition directives args = .ok sd →
       sd.fieldName = gq ("search" ++ pl (up definition.name)) ∧
         sd.entity = definition.name) ∧
    (∀ defs : List SearchableDef,
       (transformSchemaFields defs).length = defs.length ∧
       ∀ (i : Nat) (sd : SearchableDef), defs[i]? = some sd →
         (transformSchemaFields defs)[i]? = some
           { name := sd.fieldName
             args := [("term", TypeNode.named "String"), ("limit", TypeNode.named "Int")]
             type := TypeNode.nonNull (.list (.named sd.entity)) }) := by
  constructor
  · intro pl up gq definition directives args sd h
    unfold objectVisit at h
    cases h1 : validateModelDirective directives with
    | error e =>
      rw [h1] at h
      cases h
    | ok u =>
      rw [h1] at h
      cases h2 : validateSchemaFields args definition with
      | error e =>
        rw [h2] at h
        cases h
      | ok u2 =>
        rw [h2] at h
        simp only [Except.ok.injEq] at h
        rw [← h]
        exact ⟨rfl, rfl⟩
  · intro defs
    refine ⟨by simp [transformSchemaFields], ?_⟩
    intro i sd hi
    unfold transformSchemaFields
    rw [List.getElem?_map, hi]
    rfl

/-- Witness for C8 at a concrete entity. -/
theorem c8_search_query_field_witness :
    ((⟨"searchPost", "Post", []⟩ : SearchableDef).fieldName =
        id ("search" ++ id (id "Post")) ∧
      (⟨"searchPost", "Post", []⟩ : SearchableDef).entity = "Post") ∧
    (transformSchemaFields [⟨"searchPost", "Post", []⟩])[0]? = some
      { name := "searchPost"
        args := [("term", TypeNode.named "String"), ("limit", TypeNode.named "Int")]
        type := TypeNode.nonNull (.list (.named "Post")) } := by
  constructor
  · exact c8_search_query_field.1 id id id ⟨"Post", []⟩
      (some ["model", directiveName]) [] ⟨"searchPost", "Post", []⟩ rfl
  · exact (c8_search_query_field.2 [⟨"searchPost", "Post", []⟩]).2 0 ⟨"searchPost", "Post", []⟩ rfl

end Orama
